import Mathlib

/-!
Verification of the ICU-aware ARB message parsing and key-aggregation engine
(`src/arb_parser.ts`, class `ArbParser`) against its natural-language
specification.  The source's regular expressions are embedded as explicit
character-level matching functions over `List Char`:

* `/\{(\w+)\s*,\s*(plural|select|selectordinal)\s*,/` is `matchIcuHeader`
  (the JS alternation tries `plural`, then `select`, then `selectordinal`;
  on the text `selectordinal` the `select` branch fails its following
  `\s*,` and the engine backtracks to `selectordinal`, which `matchType`
  mirrors);
* `/^\{(\w+)\}/` is `matchSimple`;
* JS `\w` is `[A-Za-z0-9_]` (`isWordChar`), and the `\s` occurrences in the
  header pattern are modelled by the standard whitespace characters
  (`isSpaceChar`);
* a global-flag `exec` loop is modelled by `findHeaderFrom`, which finds the
  leftmost match at or after the regex's `lastIndex`.
-/

namespace ArbParser

/-- JS `\w`: ASCII letters, digits and underscore. -/
def isWordChar (c : Char) : Bool :=
  c.isAlphanum || c = '_'

/-- JS `\s` (the characters relevant to this code base): space, tab, and the
ASCII line/page separators. -/
def isSpaceChar (c : Char) : Bool :=
  c = ' ' || c = '\t' || c = '\n' || c = '\r' || c = '\x0b' || c = '\x0c'

/-- `leadsWith p s` holds when the character list `p` is an initial run of `s`
(the anchored literal-string match used to embed regex literals). -/
def leadsWith : List Char → List Char → Bool
  | [], _ => true
  | _ :: _, [] => false
  | a :: as, b :: bs => a = b && leadsWith as bs

/-- The three ICU message types recognized by the header pattern. -/
inductive IcuType where
  | plural
  | select
  | selectordinal
deriving DecidableEq, Repr

/-- The string form of an `IcuType` (as interpolated into error messages). -/
def IcuType.str : IcuType → List Char
  | .plural => "plural".toList
  | .select => "select".toList
  | .selectordinal => "selectordinal".toList

/-- After an alternation keyword the header pattern requires `\s*,`; this
consumes it, returning the remaining suffix. -/
def afterKeyword (s : List Char) : Option (List Char) :=
  match s.dropWhile isSpaceChar with
  | [] => none
  | c :: rest => if c = ',' then some rest else none

/-- One keyword alternative of `(plural|select|selectordinal)` followed by
`\s*,`. -/
def tryKeyword (kw : List Char) (t : IcuType) (s : List Char) :
    Option (IcuType × List Char) :=
  if leadsWith kw s then
    (afterKeyword (s.drop kw.length)).map (fun r => (t, r))
  else
    none

/-- The alternation `(plural|select|selectordinal)\s*,` in the order the JS
regex engine tries it (with the backtracking from `select` to
`selectordinal` made explicit). -/
def matchType (s : List Char) : Option (IcuType × List Char) :=
  match tryKeyword "plural".toList .plural s with
  | some r => some r
  | none =>
    match tryKeyword "select".toList .select s with
    | some r => some r
    | none => tryKeyword "selectordinal".toList .selectordinal s

/-- Anchored match of the ICU header pattern
`\{(\w+)\s*,\s*(plural|select|selectordinal)\s*,` at the head of `s`.
Returns the captured variable name, the type, and the suffix after the
final comma.  Greedy `\w+`/`\s*` runs are exact here because the characters
that may follow each run are disjoint from the run's own character class. -/
def matchIcuHeader (s : List Char) : Option (List Char × IcuType × List Char) :=
  match s with
  | [] => none
  | c :: rest =>
    if c = '{' then
      let name := rest.takeWhile isWordChar
      if name.isEmpty then none
      else
        match afterKeyword (rest.dropWhile isWordChar) with
        | none => none
        | some rest2 =>
          (matchType (rest2.dropWhile isSpaceChar)).map fun tr => (name, tr.1, tr.2)
    else none

/-- Anchored match of `^\{(\w+)\}` at the head of `s`: a simple placeholder.
Returns the name and the total matched length (`name.length + 2`). -/
def matchSimple (s : List Char) : Option (List Char × Nat) :=
  match s with
  | [] => none
  | c :: rest =>
    if c = '{' then
      let name := rest.takeWhile isWordChar
      if name.isEmpty then none
      else
        match rest.dropWhile isWordChar with
        | [] => none
        | c2 :: _ => if c2 = '}' then some (name, name.length + 2) else none
    else none

/-- `hasIcuSyntax` (source line 202): the unanchored test of the header
pattern, true iff the header matches at some index. -/
def hasIcuSyntax (s : List Char) : Bool :=
  (List.range s.length).any fun i => (matchIcuHeader (s.drop i)).isSome

theorem length_dropWhile_le (p : Char → Bool) (l : List Char) :
    (l.dropWhile p).length ≤ l.length := by
  induction l with
  | nil => simp
  | cons a l ih =>
    by_cases h : p a
    · simp [List.dropWhile, h]; omega
    · simp [List.dropWhile, h]

theorem afterKeyword_length {s r : List Char} (h : afterKeyword s = some r) :
    r.length < s.length := by
  unfold afterKeyword at h
  have hd := length_dropWhile_le isSpaceChar s
  rcases he : s.dropWhile isSpaceChar with _ | ⟨c, rest⟩
  · rw [he] at h; cases h
  · rw [he] at h hd
    by_cases hc : c = ','
    · subst hc
      simp at h hd
      subst h
      omega
    · simp [hc] at h

theorem tryKeyword_length {kw s r : List Char} {t t' : IcuType}
    (h : tryKeyword kw t s = some (t', r)) : r.length < s.length := by
  unfold tryKeyword at h
  by_cases hl : leadsWith kw s
  · rw [if_pos hl, Option.map_eq_some'] at h
    obtain ⟨r', ha, he⟩ := h
    cases he
    have h1 := afterKeyword_length ha
    have h2 : (s.drop kw.length).length ≤ s.length := by simp
    omega
  · rw [if_neg hl] at h; cases h

theorem matchType_length {s r : List Char} {t : IcuType}
    (h : matchType s = some (t, r)) : r.length < s.length := by
  unfold matchType at h
  rcases h1 : tryKeyword "plural".toList .plural s with _ | ⟨t1, r1⟩
  · rw [h1] at h
    rcases h2 : tryKeyword "select".toList .select s with _ | ⟨t2, r2⟩
    · rw [h2] at h
      exact tryKeyword_length h
    · rw [h2] at h
      cases h
      exact tryKeyword_length h2
  · rw [h1] at h
    cases h
    exact tryKeyword_length h1

theorem matchIcuHeader_length {s n r : List Char} {t : IcuType}
    (h : matchIcuHeader s = some (n, t, r)) : r.length < s.length := by
  rcases s with _ | ⟨c, rest⟩
  · cases h
  · simp only [matchIcuHeader] at h
    by_cases hc : c = '{'
    · rw [if_pos hc] at h
      by_cases he : (rest.takeWhile isWordChar).isEmpty
      · rw [if_pos he] at h; cases h
      · rw [if_neg he] at h
        rcases ha : afterKeyword (rest.dropWhile isWordChar) with _ | rest2
        · rw [ha] at h; cases h
        · rw [ha] at h
          rw [Option.map_eq_some'] at h
          obtain ⟨⟨t', r'⟩, hm, hpr⟩ := h
          cases hpr
          have h1 := matchType_length hm
          have h2 := length_dropWhile_le isSpaceChar rest2
          have h3 := afterKeyword_length ha
          have h4 := length_dropWhile_le isWordChar rest
          simp only [List.length_cons]
          omega
    · rw [if_neg hc] at h; cases h

/-- The search loop of a regex `exec`: walk the suffix starting at absolute
index `j`, returning for the leftmost header match its index, captured name,
type, and the index just past the match (the regex's new `lastIndex`). -/
def headerSearch : List Char → Nat → Option (Nat × List Char × IcuType × Nat)
  | [], _ => none
  | c :: tail, j =>
    match matchIcuHeader (c :: tail) with
    | some (n, t, rest) => some (j, n, t, j + ((c :: tail).length - rest.length))
    | none => headerSearch tail (j + 1)

/-- One `exec` step of a global-flag regex with `lastIndex = i`: the leftmost
match of the ICU header pattern at an index `≥ i`. -/
def findHeaderFrom (s : List Char) (i : Nat) : Option (Nat × List Char × IcuType × Nat) :=
  headerSearch (s.drop i) i

theorem headerSearch_bounds {u : List Char} {i j e : Nat} {n : List Char} {t : IcuType}
    (h : headerSearch u i = some (j, n, t, e)) :
    i ≤ j ∧ j < e ∧ e ≤ i + u.length := by
  induction u generalizing i with
  | nil => cases h
  | cons c tail ih =>
    unfold headerSearch at h
    rcases hm : matchIcuHeader (c :: tail) with _ | ⟨n', t', rest⟩
    · rw [hm] at h
      have := ih h
      simp only [List.length_cons]
      omega
    · rw [hm] at h
      simp only [Option.some.injEq, Prod.mk.injEq] at h
      obtain ⟨h1, h2, h3, h4⟩ := h
      have hlen := matchIcuHeader_length hm
      simp only [List.length_cons] at hlen h4 ⊢
      omega

theorem findHeaderFrom_bounds {s : List Char} {i j e : Nat} {n : List Char} {t : IcuType}
    (h : findHeaderFrom s i = some (j, n, t, e)) :
    i ≤ j ∧ j < e ∧ e ≤ s.length := by
  unfold findHeaderFrom at h
  by_cases hi : i ≤ s.length
  · have hb := headerSearch_bounds h
    have hd : (s.drop i).length = s.length - i := by simp
    omega
  · rw [List.drop_eq_nil_of_le (by omega)] at h
    cases h

/-- The brace-depth scan shared by `skipIcuBlock` (source line 159) and the
segment-end scan of `getIcuSegments` (source lines 239-250): starting at
absolute index `i` with depth `depth`, return `some` of the index just past
the character at which the depth first returns to zero on a `}`, or `none`
if the scan exhausts the text. -/
def braceClose : List Char → Int → Nat → Option Nat
  | [], _, _ => none
  | c :: rest, depth, i =>
    if c = '{' then braceClose rest (depth + 1) (i + 1)
    else if c = '}' then
      if depth - 1 = 0 then some (i + 1)
      else braceClose rest (depth - 1) (i + 1)
    else braceClose rest depth (i + 1)

theorem braceClose_ge {l : List Char} {d : Int} {i j : Nat}
    (h : braceClose l d i = some j) : i + 1 ≤ j := by
  induction l generalizing d i with
  | nil => cases h
  | cons c rest ih =>
    unfold braceClose at h
    by_cases h1 : c = '{'
    · rw [if_pos h1] at h
      have := ih h
      omega
    · rw [if_neg h1] at h
      by_cases h2 : c = '}'
      · rw [if_pos h2] at h
        by_cases h3 : d - 1 = 0
        · rw [if_pos h3] at h
          injection h with h
          omega
        · rw [if_neg h3] at h
          have := ih h
          omega
      · rw [if_neg h2] at h
        have := ih h
        omega

/-- `skipIcuBlock` (source lines 159-172): brace-depth scan from `startPos`,
returning the index after the block's closing brace, or `text.length` when
the braces never rebalance. -/
def skipIcuBlock (s : List Char) (startPos : Nat) : Nat :=
  (braceClose (s.drop startPos) 0 startPos).getD s.length

theorem skipIcuBlock_ge {s : List Char} {i : Nat} (hi : i < s.length) :
    i + 1 ≤ skipIcuBlock s i := by
  unfold skipIcuBlock
  rcases h : braceClose (s.drop i) 0 i with _ | j
  · simpa using hi
  · simpa using braceClose_ge h

/-- The inner scan of `getIcuSegments` (source lines 239-250): `end` is
initialized to `start` and is only advanced when the depth returns to zero,
so an unterminated block yields `end = start`. -/
def segStop (s : List Char) (start : Nat) : Nat :=
  (braceClose (s.drop start) 0 start).getD start

/-- One element of the array returned by `getIcuSegments` (source lines
219-232).  The source's `variable` and `end` fields are named `varName` and
`stop` here because both words are Lean keywords. -/
structure IcuSegment where
  varName : List Char
  type : IcuType
  start : Nat
  stop : Nat
  raw : List Char
deriving DecidableEq, Repr

/-- The `exec` loop of `getIcuSegments` (source lines 234-258), parameterized
by the regex's current `lastIndex`.  Note the loop resumes at the end of the
*header match*, not at the end of the resolved block. -/
def getIcuSegmentsAux (s : List Char) (lastIndex : Nat) : List IcuSegment :=
  match h : findHeaderFrom s lastIndex with
  | none => []
  | some (start, n, t, mEnd) =>
    let e := segStop s start
    { varName := n, type := t, start := start, stop := e,
      raw := (s.drop start).take (e - start) } :: getIcuSegmentsAux s mEnd
termination_by s.length - lastIndex
decreasing_by
  have := findHeaderFrom_bounds h
  omega

/-- `getIcuSegments` (source lines 219-261). -/
def getIcuSegments (s : List Char) : List IcuSegment :=
  getIcuSegmentsAux s 0

/-- `isCompoundMessage` (source lines 267-269). -/
def isCompoundMessage (s : List Char) : Bool :=
  (getIcuSegments s).length > 1

/-- `getIcuType` (source lines 210-213): `text.match(...)` finds the leftmost
match of the header pattern and the function returns its captured type. -/
def getIcuType (s : List Char) : Option IcuType :=
  match findHeaderFrom s 0 with
  | some (_, _, t, _) => some t
  | none => none

/-- The loop of `isInsideIcuBlock` (source lines 177-197): scan characters
`i, i+1, ..., pos-1`, incrementing `braceDepth` on `{` (and setting `inIcu`
whenever the header pattern matches at that `{`), decrementing on `}` (and
clearing `inIcu` when the depth thereby reaches zero).  Indices past the end
of the text compare unequal to both braces, as in JS. -/
def isInsideIcuBlockAux (s : List Char) : Nat → Nat → Int → Bool → Bool
  | 0, _, braceDepth, inIcu => braceDepth > 0 && inIcu
  | countdown + 1, i, braceDepth, inIcu =>
    if s.get? i = some '{' then
      isInsideIcuBlockAux s countdown (i + 1) (braceDepth + 1)
        (inIcu || (matchIcuHeader (s.drop i)).isSome)
    else if s.get? i = some '}' then
      isInsideIcuBlockAux s countdown (i + 1) (braceDepth - 1)
        (if braceDepth - 1 = 0 then false else inIcu)
    else isInsideIcuBlockAux s countdown (i + 1) braceDepth inIcu

/-- `isInsideIcuBlock` (source lines 177-197): the loop body runs exactly
once per index `0, ..., position - 1` (the countdown is the number of
iterations left, so `countdown + i = position` throughout). -/
def isInsideIcuBlock (s : List Char) (position : Nat) : Bool :=
  isInsideIcuBlockAux s position 0 0 false

/-- The first pass of `extractPlaceholders` (source lines 114-120): the list
of control-variable names captured by the global header-pattern loop, in
match order (possibly with repetitions). -/
def icuVarNamesFrom (s : List Char) (i : Nat) : List (List Char) :=
  match h : findHeaderFrom s i with
  | none => []
  | some (_, n, _, e) => n :: icuVarNamesFrom s e
termination_by s.length - i
decreasing_by
  have := findHeaderFrom_bounds h
  omega

/-- JS `Set.prototype.add`: append if not already present (insertion order
is preserved; `Array.from` later reads the set back in that order). -/
def addToSet (l : List (List Char)) (x : List Char) : List (List Char) :=
  if x ∈ l then l else l ++ [x]

/-- The contents of both the `icuVars` set and the initial `placeholders` set
after the first pass of `extractPlaceholders`. -/
def icuVarsSet (s : List Char) : List (List Char) :=
  (icuVarNamesFrom s 0).foldl addToSet []

theorem matchSimple_len {s n : List Char} {len : Nat}
    (h : matchSimple s = some (n, len)) : 1 ≤ len := by
  rcases s with _ | ⟨c, rest⟩
  · cases h
  · simp only [matchSimple] at h
    by_cases hc : c = '{'
    · rw [if_pos hc] at h
      by_cases he : (rest.takeWhile isWordChar).isEmpty
      · rw [if_pos he] at h; cases h
      · rw [if_neg he] at h
        rcases hd : rest.dropWhile isWordChar with _ | ⟨c2, rest2⟩
        · simp only [hd] at h; cases h
        · simp only [hd] at h
          by_cases hc2 : c2 = '}'
          · rw [if_pos hc2] at h
            simp at h
            omega
          · rw [if_neg hc2] at h; cases h
    · rw [if_neg hc] at h; cases h

/-- The second pass of `extractPlaceholders` (source lines 124-151): walk the
text; at each `{`, try the simple-placeholder match; on success, if the
position also matches the ICU header pattern skip the block, otherwise add
the name unless it is a known ICU variable and the position is inside an ICU
block; advance past the match (or by one character). -/
def extractPass2 (s : List Char) (icuVars acc : List (List Char)) (i : Nat) :
    List (List Char) :=
  if hi : i < s.length then
    if s.get? i = some '{' then
      match hm : matchSimple (s.drop i) with
      | some (varName, len) =>
        if (matchIcuHeader (s.drop i)).isSome then
          extractPass2 s icuVars acc (skipIcuBlock s i)
        else
          if !(varName ∈ icuVars) || !(isInsideIcuBlock s i) then
            extractPass2 s icuVars (addToSet acc varName) (i + len)
          else
            extractPass2 s icuVars acc (i + len)
      | none => extractPass2 s icuVars acc (i + 1)
    else extractPass2 s icuVars acc (i + 1)
  else acc
termination_by s.length - i
decreasing_by
  · have := skipIcuBlock_ge hi
    omega
  · have hlen := matchSimple_len hm
    omega
  · have hlen := matchSimple_len hm
    omega
  · omega
  · omega

/-- `extractPlaceholders` (source lines 110-154): first pass collects ICU
control-variable names into both sets, second pass scans for simple
placeholders; `Array.from` returns the set in insertion order. -/
def extractPlaceholders (s : List Char) : List (List Char) :=
  extractPass2 s (icuVarsSet s) (icuVarsSet s) 0

theorem findHeaderFrom_of_le {s : List Char} {i : Nat} (h : s.length ≤ i) :
    findHeaderFrom s i = none := by
  unfold findHeaderFrom
  rw [List.drop_eq_nil_of_le h]
  rfl

/-- Fuel-indexed mirror of `icuVarNamesFrom`, used only to let concrete
inputs evaluate inside the kernel; `icuVarNamesFromF_eq` proves it agrees
with the loop whenever the fuel covers the remaining text. -/
def icuVarNamesFromF (s : List Char) : Nat → Nat → List (List Char)
  | 0, _ => []
  | fuel + 1, i =>
    match findHeaderFrom s i with
    | none => []
    | some (_, n, _, e) => n :: icuVarNamesFromF s fuel e

theorem icuVarNamesFrom_none {s : List Char} {i : Nat}
    (h : findHeaderFrom s i = none) : icuVarNamesFrom s i = [] := by
  rw [icuVarNamesFrom]
  split
  · rfl
  · next j n t e hm => rw [h] at hm; cases hm

theorem icuVarNamesFrom_some {s n : List Char} {i j e : Nat} {t : IcuType}
    (h : findHeaderFrom s i = some (j, n, t, e)) :
    icuVarNamesFrom s i = n :: icuVarNamesFrom s e := by
  rw [icuVarNamesFrom]
  split
  · next hm => rw [h] at hm; cases hm
  · next j' n' t' e' hm =>
    rw [h] at hm
    injection hm with hm
    injection hm with h1 hm
    injection hm with h2 hm
    injection hm with h3 h4
    subst h2; subst h4
    rfl

theorem icuVarNamesFromF_eq (s : List Char) (fuel i : Nat) (hf : s.length ≤ i + fuel) :
    icuVarNamesFromF s fuel i = icuVarNamesFrom s i := by
  induction fuel generalizing i with
  | zero =>
    rw [icuVarNamesFrom_none (findHeaderFrom_of_le (by omega))]
    rfl
  | succ fuel ih =>
    unfold icuVarNamesFromF
    rcases hm : findHeaderFrom s i with _ | ⟨j, n, t, e⟩
    · rw [icuVarNamesFrom_none hm]
    · have hb := findHeaderFrom_bounds hm
      show n :: icuVarNamesFromF s fuel e = icuVarNamesFrom s i
      rw [icuVarNamesFrom_some hm, ih e (by omega)]

/-- Fuel-indexed mirror of `getIcuSegmentsAux` (see `icuVarNamesFromF`). -/
def getIcuSegmentsAuxF (s : List Char) : Nat → Nat → List IcuSegment
  | 0, _ => []
  | fuel + 1, lastIndex =>
    match findHeaderFrom s lastIndex with
    | none => []
    | some (start, n, t, mEnd) =>
      let e := segStop s start
      { varName := n, type := t, start := start, stop := e,
        raw := (s.drop start).take (e - start) } :: getIcuSegmentsAuxF s fuel mEnd

theorem getIcuSegmentsAux_none {s : List Char} {i : Nat}
    (h : findHeaderFrom s i = none) : getIcuSegmentsAux s i = [] := by
  rw [getIcuSegmentsAux]
  split
  · rfl
  · next j n t e hm => rw [h] at hm; cases hm

theorem getIcuSegmentsAux_some {s n : List Char} {i j e : Nat} {t : IcuType}
    (h : findHeaderFrom s i = some (j, n, t, e)) :
    getIcuSegmentsAux s i =
      { varName := n, type := t, start := j, stop := segStop s j,
        raw := (s.drop j).take (segStop s j - j) } :: getIcuSegmentsAux s e := by
  rw [getIcuSegmentsAux]
  split
  · next hm => rw [h] at hm; cases hm
  · next j' n' t' e' hm =>
    rw [h] at hm
    injection hm with hm
    injection hm with h1 hm
    injection hm with h2 hm
    injection hm with h3 h4
    subst h1; subst h2; subst h3; subst h4
    rfl

theorem getIcuSegmentsAuxF_eq (s : List Char) (fuel i : Nat) (hf : s.length ≤ i + fuel) :
    getIcuSegmentsAuxF s fuel i = getIcuSegmentsAux s i := by
  induction fuel generalizing i with
  | zero =>
    rw [getIcuSegmentsAux_none (findHeaderFrom_of_le (by omega))]
    rfl
  | succ fuel ih =>
    unfold getIcuSegmentsAuxF
    rcases hm : findHeaderFrom s i with _ | ⟨j, n, t, e⟩
    · rw [getIcuSegmentsAux_none hm]
    · have hb := findHeaderFrom_bounds hm
      show ({ varName := n, type := t, start := j, stop := segStop s j,
              raw := (s.drop j).take (segStop s j - j) } : IcuSegment)
            :: getIcuSegmentsAuxF s fuel e = getIcuSegmentsAux s i
      rw [getIcuSegmentsAux_some hm, ih e (by omega)]

theorem getIcuSegments_eqF (s : List Char) :
    getIcuSegments s = getIcuSegmentsAuxF s (s.length + 1) 0 := by
  rw [getIcuSegmentsAuxF_eq s (s.length + 1) 0 (by omega)]
  rfl

/-- Fuel-indexed mirror of `extractPass2` (see `icuVarNamesFromF`). -/
def extractPass2F (s : List Char) (icuVars : List (List Char)) :
    Nat → List (List Char) → Nat → List (List Char)
  | 0, acc, _ => acc
  | fuel + 1, acc, i =>
    if i < s.length then
      if s.get? i = some '{' then
        match matchSimple (s.drop i) with
        | some (varName, len) =>
          if (matchIcuHeader (s.drop i)).isSome then
            extractPass2F s icuVars fuel acc (skipIcuBlock s i)
          else
            if !(varName ∈ icuVars) || !(isInsideIcuBlock s i) then
              extractPass2F s icuVars fuel (addToSet acc varName) (i + len)
            else
              extractPass2F s icuVars fuel acc (i + len)
        | none => extractPass2F s icuVars fuel acc (i + 1)
      else extractPass2F s icuVars fuel acc (i + 1)
    else acc

theorem extractPass2_stop {s : List Char} {icuVars acc : List (List Char)} {i : Nat}
    (hi : ¬ i < s.length) : extractPass2 s icuVars acc i = acc := by
  rw [extractPass2, dif_neg hi]

theorem extractPass2_noBrace {s : List Char} {icuVars acc : List (List Char)} {i : Nat}
    (hi : i < s.length) (hb : ¬ s.get? i = some '{') :
    extractPass2 s icuVars acc i = extractPass2 s icuVars acc (i + 1) := by
  rw [extractPass2, dif_pos hi, if_neg hb]

theorem extractPass2_noSimple {s : List Char} {icuVars acc : List (List Char)} {i : Nat}
    (hi : i < s.length) (hb : s.get? i = some '{')
    (hm : matchSimple (s.drop i) = none) :
    extractPass2 s icuVars acc i = extractPass2 s icuVars acc (i + 1) := by
  rw [extractPass2, dif_pos hi, if_pos hb]
  split
  · next varName len hm' => rw [hm] at hm'; cases hm'
  · rfl

theorem extractPass2_simple {s varName : List Char} {icuVars acc : List (List Char)}
    {i len : Nat} (hi : i < s.length) (hb : s.get? i = some '{')
    (hm : matchSimple (s.drop i) = some (varName, len)) :
    extractPass2 s icuVars acc i =
      if (matchIcuHeader (s.drop i)).isSome then
        extractPass2 s icuVars acc (skipIcuBlock s i)
      else
        if !(varName ∈ icuVars) || !(isInsideIcuBlock s i) then
          extractPass2 s icuVars (addToSet acc varName) (i + len)
        else
          extractPass2 s icuVars acc (i + len) := by
  rw [extractPass2, dif_pos hi, if_pos hb]
  split
  · next varName' len' hm' =>
    rw [hm] at hm'
    injection hm' with hm'
    injection hm' with h1 h2
    subst h1; subst h2
    rfl
  · next hm' => rw [hm] at hm'; cases hm'

theorem extractPass2F_eq (s : List Char) (icuVars : List (List Char))
    (fuel : Nat) (acc : List (List Char)) (i : Nat) (hf : s.length ≤ i + fuel) :
    extractPass2F s icuVars fuel acc i = extractPass2 s icuVars acc i := by
  induction fuel generalizing acc i with
  | zero =>
    rw [extractPass2_stop (by omega)]
    rfl
  | succ fuel ih =>
    unfold extractPass2F
    by_cases hi : i < s.length
    · rw [if_pos hi]
      by_cases hb : s.get? i = some '{'
      · rw [if_pos hb]
        rcases hm : matchSimple (s.drop i) with _ | ⟨varName, len⟩
        · rw [extractPass2_noSimple hi hb hm]
          exact ih acc (i + 1) (by omega)
        · have hlen := matchSimple_len hm
          rw [extractPass2_simple hi hb hm]
          show (if (matchIcuHeader (s.drop i)).isSome then
                  extractPass2F s icuVars fuel acc (skipIcuBlock s i)
                else
                  if !(varName ∈ icuVars) || !(isInsideIcuBlock s i) then
                    extractPass2F s icuVars fuel (addToSet acc varName) (i + len)
                  else
                    extractPass2F s icuVars fuel acc (i + len)) = _
          by_cases hicu : (matchIcuHeader (s.drop i)).isSome
          · rw [if_pos hicu, if_pos hicu]
            have hskip := skipIcuBlock_ge hi
            exact ih acc (skipIcuBlock s i) (by omega)
          · rw [if_neg hicu, if_neg hicu]
            by_cases hadd : !(varName ∈ icuVars) || !(isInsideIcuBlock s i)
            · rw [if_pos hadd, if_pos hadd]
              exact ih (addToSet acc varName) (i + len) (by omega)
            · rw [if_neg hadd, if_neg hadd]
              exact ih acc (i + len) (by omega)
      · rw [if_neg hb, extractPass2_noBrace hi hb]
        exact ih acc (i + 1) (by omega)
    · rw [if_neg hi, extractPass2_stop hi]

theorem extractPlaceholders_eqF (s : List Char) :
    extractPlaceholders s =
      extractPass2F s ((icuVarNamesFromF s (s.length + 1) 0).foldl addToSet [])
        (s.length + 1) ((icuVarNamesFromF s (s.length + 1) 0).foldl addToSet []) 0 := by
  rw [icuVarNamesFromF_eq s (s.length + 1) 0 (by omega)]
  rw [extractPass2F_eq s _ (s.length + 1) _ 0 (by omega)]
  rfl

/-- The result record of `validateIcuSyntax`: `{ valid: boolean; error?: string }`. -/
structure ValidationResult where
  valid : Bool
  error : Option (List Char)
deriving DecidableEq, Repr

/-- The brace-balance loop of `validateIcuSyntax` (source lines 281-293):
running count of `{` minus `}`, with an early "Unmatched closing brace"
return the moment the count goes negative and an "Unmatched opening brace"
error if the final count is nonzero. -/
def scanBraces : List Char → Int → Option (List Char)
  | [], n => if n = 0 then none else some "Unmatched opening brace".toList
  | c :: rest, n =>
    let n' := if c = '{' then n + 1 else if c = '}' then n - 1 else n
    if n' < 0 then some "Unmatched closing brace".toList else scanBraces rest n'

/-- JS `String.prototype.includes`: the pattern occurs as a contiguous run
at some index. -/
def includesSub (s pat : List Char) : Bool :=
  (List.range (s.length + 1)).any fun i => leadsWith pat (s.drop i)

/-- `validateIcuSyntax` (source lines 275-304). -/
def validateIcuSyntax (s : List Char) : ValidationResult :=
  if !hasIcuSyntax s then ⟨true, none⟩
  else
    match scanBraces s 0 with
    | some e => ⟨false, some e⟩
    | none =>
      match getIcuType s with
      | some t =>
        if (t = .plural || t = .selectordinal)
            && !includesSub s "other\x7b".toList then
          ⟨false, some ("ICU ".toList ++ t.str
            ++ " message missing required 'other' case".toList)⟩
        else ⟨true, none⟩
      | none => ⟨true, none⟩

/-- `PlaceholderInfo` (source lines 11-17); the `example` field is renamed
`exampleVal` because `example` is a Lean keyword. -/
structure PlaceholderInfo where
  type : Option (List Char) := none
  exampleVal : Option (List Char) := none
  format : Option (List Char) := none
  isCustomDateFormat : Option (List Char) := none
  optionalParameters : Option (List (List Char × List Char)) := none
deriving DecidableEq, Repr

/-- `getOrderedPlaceholders` (source lines 310-324): a non-empty metadata
mapping's key insertion order is authoritative; otherwise fall back to
`extractPlaceholders`. -/
def getOrderedPlaceholders (text : List Char)
    (metadata : Option (List (List Char × PlaceholderInfo))) : List (List Char) :=
  match metadata with
  | none => extractPlaceholders text
  | some m =>
    let orderedKeys := m.map (·.1)
    if orderedKeys.length > 0 then orderedKeys
    else extractPlaceholders text

/-! ## The key aggregator (`parseModule`, source lines 39-68)

A parsed ARB document is modelled as its declared locale together with its
JSON object: an insertion-ordered association list from key to value, where
a value is either a translation string or a metadata object (the shape
`readArbFile` hands to `parseModule`).  I/O is outside the model: the claims
quantify over already-decoded documents. -/

/-- A JSON value as `parseModule` consumes it: a translation string or an
`@key` metadata object carrying `description` and `placeholders`. -/
inductive ArbValue where
  | str (s : List Char)
  | meta (description : Option (List Char))
         (placeholders : Option (List (List Char × PlaceholderInfo)))
deriving DecidableEq, Repr

/-- One decoded ARB document: the `arbFile.locale` tag plus the decoded
object's entries in insertion order. -/
structure ArbDoc where
  locale : List Char
  entries : List (List Char × ArbValue)
deriving DecidableEq, Repr

/-- `TranslationKey` (source lines 4-9).  `translations` keeps the raw value
assigned (the source stores `value as string` without a runtime check). -/
structure TranslationKey where
  key : List Char
  translations : List (List Char × ArbValue)
  description : Option (List Char)
  placeholders : Option (List (List Char × PlaceholderInfo))
deriving DecidableEq, Repr

/-- First binding of `k` in an association list (JS object property read). -/
def lookupAssoc {α : Type} (l : List (List Char × α)) (k : List Char) : Option α :=
  (l.find? fun p => p.1 = k).map (·.2)

/-- JS object/`Map` property write: overwrite in place if present (keeping
the key's insertion position), otherwise append. -/
def setAssoc {α : Type} (l : List (List Char × α)) (k : List Char) (v : α) :
    List (List Char × α) :=
  if l.any (fun p => p.1 = k) then
    l.map fun p => if p.1 = k then (k, v) else p
  else l ++ [(k, v)]

/-- `key.startsWith('@@') || key.startsWith('@')` (source line 46), which
collapses to a single leading-`@` test. -/
def isMetaKey : List Char → Bool
  | [] => false
  | c :: _ => c = '@'

/-- `parsePlaceholders` (source lines 83-102): map each entry's fields
verbatim; absent input maps to absent output. -/
def parsePlaceholders (placeholders : Option (List (List Char × PlaceholderInfo))) :
    Option (List (List Char × PlaceholderInfo)) :=
  match placeholders with
  | none => none
  | some l => some (l.map fun p =>
      (p.1, { type := p.2.type, exampleVal := p.2.exampleVal, format := p.2.format,
              isCustomDateFormat := p.2.isCustomDateFormat,
              optionalParameters := p.2.optionalParameters }))

/-- The `description` the source reads from `content[`@key`]` when creating a
record: `undefined` unless the metadata entry exists and is an object with a
`description` field (reading a property of a string value yields
`undefined`). -/
def docDescription (entries : List (List Char × ArbValue)) (key : List Char) :
    Option (List Char) :=
  match lookupAssoc entries ('@' :: key) with
  | some (.meta d _) => d
  | _ => none

/-- The raw `placeholders` field of `content[`@key`]`, before
`parsePlaceholders`. -/
def docRawPlaceholders (entries : List (List Char × ArbValue)) (key : List Char) :
    Option (List (List Char × PlaceholderInfo)) :=
  match lookupAssoc entries ('@' :: key) with
  | some (.meta _ p) => p
  | _ => none

/-- The fresh record built at source lines 55-60 when a key is first seen. -/
def mkTranslationKey (entries : List (List Char × ArbValue)) (key : List Char) :
    TranslationKey :=
  { key := key
    translations := []
    description := docDescription entries key
    placeholders := parsePlaceholders (docRawPlaceholders entries key) }

/-- The mutation `keysMap.get(key)!.translations[arbFile.locale] = value`
(source line 63) as a function on the looked-up record. -/
def updateTranslations (doc : ArbDoc) (v : ArbValue) (tk : TranslationKey) :
    TranslationKey :=
  { tk with translations := setAssoc tk.translations doc.locale v }

/-- Processing of one `[key, value]` entry of `Object.entries(content)`
(source lines 44-64) against the accumulated `keysMap`. -/
def processEntry (doc : ArbDoc) (keysMap : List (List Char × TranslationKey))
    (entry : List Char × ArbValue) : List (List Char × TranslationKey) :=
  if isMetaKey entry.1 then keysMap
  else
    let m1 :=
      if keysMap.any (fun p => p.1 = entry.1) then keysMap
      else keysMap ++ [(entry.1, mkTranslationKey doc.entries entry.1)]
    m1.map fun p =>
      if p.1 = entry.1 then (p.1, updateTranslations doc entry.2 p.2) else p

/-- Processing of one document: fold its entries in insertion order. -/
def processDoc (keysMap : List (List Char × TranslationKey)) (doc : ArbDoc) :
    List (List Char × TranslationKey) :=
  doc.entries.foldl (processEntry doc) keysMap

/-- `parseModule` (source lines 39-68): fold the module's documents in order
into the insertion-ordered `keysMap` and return
`Array.from(keysMap.values())`. -/
def parseModule (docs : List ArbDoc) : List TranslationKey :=
  (docs.foldl processDoc []).map (·.2)

/-- "Document `d` defines key `k` as a direct translation entry": `k` is not
`@`-prefixed and occurs among the document's entries. -/
def definesKey (d : ArbDoc) (k : List Char) : Bool :=
  !isMetaKey k && d.entries.any (fun p => p.1 = k)

/-- The identity-plus-metadata projection of a `TranslationKey`: everything
except `translations`. -/
def metaOf (tk : TranslationKey) : List Char × Option (List Char) × Option (List (List Char × PlaceholderInfo)) :=
  (tk.key, tk.description, tk.placeholders)

/-- The effect on `lookupAssoc keysMap k` of processing one entry `(k, v)` of
document `d`: create the record from `d`'s metadata if absent, then write
the locale's translation. -/
def applyVal (d : ArbDoc) (k : List Char) (o : Option TranslationKey) (v : ArbValue) :
    Option TranslationKey :=
  match o with
  | some tk => some { tk with translations := setAssoc tk.translations d.locale v }
  | none => some { mkTranslationKey d.entries k with
                   translations := setAssoc [] d.locale v }

/-- The value a single document contributes for key `k` after all its entries
are processed: the value of the last entry keyed `k` (later entries of the
same document overwrite earlier ones). -/
def lastEntryVal (d : ArbDoc) (k : List Char) : Option ArbValue :=
  ((d.entries.filter fun p => p.1 = k).getLast?).map (·.2)

/-- The aggregation state maps `k` to a record whose `translations` has an
entry for locale `L`. -/
def transHas (m : List (List Char × TranslationKey)) (k L : List Char) : Prop :=
  ∃ tk, lookupAssoc m k = some tk ∧ (lookupAssoc tk.translations L).isSome = true

/-- Invariant of the aggregation state: each pair's record carries the pair's
key. -/
def keysAligned (m : List (List Char × TranslationKey)) : Prop :=
  ∀ p ∈ m, p.2.key = p.1

/-! ## Spec-side definitions

The following definitions transcribe the language of the specification (not
the source); each claim's theorem relates them to the source-derived
functions above. -/

/-- Running brace balance of the first `i` characters of `s`: the
"left-to-right running count of `{` minus `}`" of the specification. -/
def balanceAt (s : List Char) : Nat → Int
  | 0 => 0
  | i + 1 =>
    balanceAt s i +
      (if s.get? i = some '{' then 1 else if s.get? i = some '}' then -1 else 0)

/-- The ICU header pattern matches at index `j`. -/
def headerAt (s : List Char) (j : Nat) : Prop :=
  (matchIcuHeader (s.drop j)).isSome = true

/-- Position `k` is a "reset": a `}` that brings the running depth back to
zero. -/
def resetAt (s : List Char) (k : Nat) : Prop :=
  s.get? k = some '}' ∧ balanceAt s (k + 1) = 0

/-- The flag of the amended C9 reading at position `i`: some ICU header
opened at index `j < i` and the depth never returned to zero strictly
between `j` and `i`. -/
def flagP (s : List Char) (i : Nat) : Prop :=
  ∃ j, j < i ∧ headerAt s j ∧ ∀ k, j < k → k < i → ¬ resetAt s k

/-- Modelled from the spec (§4.1 `MessageScanner.isInsideBlock`): replay the
scan up to `position`, "tracking depth and whether the most recently opened
*at depth 1* block was recognized as an ICU header"; the flag is therefore
(re)assigned only at a `{` seen at depth zero. -/
def specInsideAux (s : List Char) : Nat → Nat → Int → Bool → Bool
  | 0, _, depth, flag => depth > 0 && flag
  | countdown + 1, i, depth, flag =>
    if s.get? i = some '{' then
      specInsideAux s countdown (i + 1) (depth + 1)
        (if depth = 0 then (matchIcuHeader (s.drop i)).isSome else flag)
    else if s.get? i = some '}' then
      specInsideAux s countdown (i + 1) (depth - 1) flag
    else specInsideAux s countdown (i + 1) depth flag

/-- Modelled from the spec: the claimed `isInsideBlock` semantics — depth
positive and the most recently opened depth-1 block is an ICU header. -/
def specInsideBlock (s : List Char) (position : Nat) : Bool :=
  specInsideAux s position 0 0 false

/-- Modelled from the spec (§4.5 `IcuValidator.validate`): trivially valid
without ICU syntax; otherwise invalid with "Unmatched closing brace" if the
running count ever goes negative, else "Unmatched opening brace" if the
final count is nonzero, else the type-specific missing-`other` error when
the first ICU type is `plural`/`selectordinal` and `other{` never occurs,
else valid. -/
def specValidateIcu (s : List Char) : ValidationResult :=
  if !hasIcuSyntax s then ⟨true, none⟩
  else if (List.range (s.length + 1)).any (fun i => balanceAt s i < 0) then
    ⟨false, some "Unmatched closing brace".toList⟩
  else if balanceAt s s.length ≠ 0 then
    ⟨false, some "Unmatched opening brace".toList⟩
  else
    match getIcuType s with
    | some t =>
      if (t = .plural || t = .selectordinal)
          && !includesSub s "other\x7b".toList then
        ⟨false, some ("ICU ".toList ++ t.str
          ++ " message missing required 'other' case".toList)⟩
      else ⟨true, none⟩
    | none => ⟨true, none⟩

/-! ## Concrete test inputs (brace characters written `\x7b`/`\x7d`) -/

/-- `"{count, plural, =0{none} other{{count} items}}"` — the worked example
of the spec and of the source's own doc comment. -/
def pluralNestedText : List Char :=
  "\x7bcount, plural, =0\x7bnone\x7d other\x7b\x7bcount\x7d items\x7d\x7d".toList

/-- `"{gender, select, male{He} other{They}} has {count, plural, one{1 item}
other{{count} items}}"` — the compound-message example. -/
def compoundText : List Char :=
  "\x7bgender, select, male\x7bHe\x7d other\x7bThey\x7d\x7d has \x7bcount, plural, one\x7b1 item\x7d other\x7b\x7bcount\x7d items\x7d\x7d".toList

/-- `"{a, plural, other{{b, plural, other{x}}}}"` — an ICU block nested
inside another ICU block's case body. -/
def nestedIcuText : List Char :=
  "\x7ba, plural, other\x7b\x7bb, plural, other\x7bx\x7d\x7d\x7d\x7d".toList

/-- `"{a b {x, plural, other{q}} c}"` — a non-ICU outer block containing a
closed ICU block; index 27 is the position of `c`. -/
def outerBlockText : List Char :=
  "\x7ba b \x7bx, plural, other\x7bq\x7d\x7d c\x7d".toList

/-- `"{g, select, other{a}} {n, plural, other{b}}"` — compound message whose
two segments have different ICU types. -/
def mixedTypesText : List Char :=
  "\x7bg, select, other\x7ba\x7d\x7d \x7bn, plural, other\x7bb\x7d\x7d".toList

/-! ## The regex search finds the leftmost match -/

theorem drop_succ_of_drop_cons {s tail : List Char} {i : Nat} {c : Char}
    (h : s.drop i = c :: tail) : s.drop (i + 1) = tail := by
  rw [← List.tail_drop, h]
  rfl

theorem findHeaderFrom_hit {s n rest : List Char} {i : Nat} {t : IcuType}
    (h : matchIcuHeader (s.drop i) = some (n, t, rest)) :
    findHeaderFrom s i = some (i, n, t, i + ((s.drop i).length - rest.length)) := by
  unfold findHeaderFrom
  rcases hd : s.drop i with _ | ⟨c, tail⟩
  · rw [hd] at h; cases h
  · rw [hd] at h
    unfold headerSearch
    rw [h]

theorem findHeaderFrom_step {s : List Char} {i : Nat}
    (h : matchIcuHeader (s.drop i) = none) :
    findHeaderFrom s i = findHeaderFrom s (i + 1) := by
  unfold findHeaderFrom
  rcases hd : s.drop i with _ | ⟨c, tail⟩
  · have h1 : s.length ≤ i := List.drop_eq_nil_iff_le.mp hd
    have h2 : s.drop (i + 1) = [] := List.drop_eq_nil_of_le (by omega)
    rw [h2]
    rfl
  · rw [hd] at h
    rw [drop_succ_of_drop_cons hd]
    conv_lhs => unfold headerSearch
    rw [h]

theorem findHeaderFrom_leftmost {s n rest : List Char} {j : Nat} {t : IcuType}
    (hm : matchIcuHeader (s.drop j) = some (n, t, rest)) :
    ∀ i, i ≤ j → (∀ k, i ≤ k → k < j → matchIcuHeader (s.drop k) = none) →
    findHeaderFrom s i = some (j, n, t, j + ((s.drop j).length - rest.length)) := by
  have key : ∀ d i, j - i = d → i ≤ j →
      (∀ k, i ≤ k → k < j → matchIcuHeader (s.drop k) = none) →
      findHeaderFrom s i = some (j, n, t, j + ((s.drop j).length - rest.length)) := by
    intro d
    induction d with
    | zero =>
      intro i hd hij _
      have : i = j := by omega
      subst this
      exact findHeaderFrom_hit hm
    | succ d ih =>
      intro i hd hij hnone
      have hij' : i < j := by omega
      rw [findHeaderFrom_step (hnone i le_rfl hij')]
      exact ih (i + 1) (by omega) (by omega) fun k hk1 hk2 => hnone k (by omega) hk2
  intro i hij hnone
  exact key (j - i) i rfl hij hnone

theorem findHeaderFrom_allNone {s : List Char}
    (h : ∀ k, matchIcuHeader (s.drop k) = none) :
    ∀ i, findHeaderFrom s i = none := by
  have key : ∀ d i, s.length - i = d → findHeaderFrom s i = none := by
    intro d
    induction d with
    | zero =>
      intro i hd
      exact findHeaderFrom_of_le (by omega)
    | succ d ih =>
      intro i hd
      rw [findHeaderFrom_step (h i)]
      exact ih (i + 1) (by omega)
  intro i
  exact key (s.length - i) i rfl

/-! ## The early-return brace scan agrees with the prefix-balance description -/

theorem balanceAt_succ (s : List Char) (i : Nat) :
    balanceAt s (i + 1) = balanceAt s i +
      (if s.get? i = some '{' then 1 else if s.get? i = some '}' then -1 else 0) := rfl

theorem balanceAt_cons (c : Char) (rest : List Char) (k : Nat) :
    balanceAt (c :: rest) (k + 1) =
      (if c = '{' then (1 : Int) else if c = '}' then -1 else 0) + balanceAt rest k := by
  induction k with
  | zero =>
    rw [balanceAt_succ]
    simp [balanceAt]
  | succ k ih =>
    rw [balanceAt_succ, ih, balanceAt_succ]
    simp only [List.get?_cons_succ]
    ring

theorem scanBraces_spec (l : List Char) (n : Int) (hn : 0 ≤ n) :
    scanBraces l n =
      if (List.range (l.length + 1)).any fun k => n + balanceAt l k < 0 then
        some "Unmatched closing brace".toList
      else if n + balanceAt l l.length ≠ 0 then some "Unmatched opening brace".toList
      else none := by
  induction l generalizing n with
  | nil =>
    show (if n = 0 then none else some "Unmatched opening brace".toList) = _
    have h1 : ((List.range 1).any fun k => decide (n + balanceAt [] k < 0)) = false := by
      simp [balanceAt]
      omega
    simp only [List.length_nil]
    rw [h1]
    simp only [Bool.false_eq_true, if_false]
    show _ = (if n + balanceAt [] 0 ≠ 0 then _ else _)
    by_cases h : n = 0
    · simp [h, balanceAt]
    · simp only [balanceAt]
      rw [if_neg h, if_pos (by omega)]
  | cons c rest ih =>
    have hN : (if c = '{' then n + 1 else if c = '}' then n - 1 else n) =
        n + (if c = '{' then (1 : Int) else if c = '}' then -1 else 0) := by
      by_cases h1 : c = '{'
      · simp [h1]
      · by_cases h2 : c = '}' <;> simp [h1, h2] <;> omega
    show (if (if c = '{' then n + 1 else if c = '}' then n - 1 else n) < 0 then
            some "Unmatched closing brace".toList
          else scanBraces rest (if c = '{' then n + 1 else if c = '}' then n - 1 else n)) = _
    rw [hN]
    set d : Int := if c = '{' then (1 : Int) else if c = '}' then -1 else 0 with hd
    by_cases hneg : n + d < 0
    · rw [if_pos hneg]
      have hany : ((List.range ((c :: rest).length + 1)).any
          fun k => decide (n + balanceAt (c :: rest) k < 0)) = true := by
        refine List.any_eq_true.mpr ⟨1, List.mem_range.mpr (by simp), ?_⟩
        rw [balanceAt_cons]
        simp only [balanceAt, decide_eq_true_eq]
        omega
      rw [hany]
      simp
    · rw [if_neg hneg]
      rw [ih (n + d) (by omega)]
      have hcond : ((List.range (rest.length + 1)).any
            fun k => decide ((n + d) + balanceAt rest k < 0)) =
          ((List.range ((c :: rest).length + 1)).any
            fun k => decide (n + balanceAt (c :: rest) k < 0)) := by
        rcases h1 : (List.range (rest.length + 1)).any
            fun k => decide ((n + d) + balanceAt rest k < 0) with _ | _
        · rcases h2 : (List.range ((c :: rest).length + 1)).any
              fun k => decide (n + balanceAt (c :: rest) k < 0) with _ | _
          · rfl
          · exfalso
            obtain ⟨k, hk, hlt⟩ := List.any_eq_true.mp h2
            rw [List.mem_range] at hk
            rw [decide_eq_true_eq] at hlt
            match k with
            | 0 =>
              simp only [balanceAt] at hlt
              omega
            | k + 1 =>
              rw [balanceAt_cons] at hlt
              have : ((List.range (rest.length + 1)).any
                  fun k => decide ((n + d) + balanceAt rest k < 0)) = true := by
                refine List.any_eq_true.mpr ⟨k, List.mem_range.mpr ?_, ?_⟩
                · simp only [List.length_cons] at hk
                  omega
                · rw [decide_eq_true_eq]
                  omega
              rw [h1] at this
              cases this
        · obtain ⟨k, hk, hlt⟩ := List.any_eq_true.mp h1
          rw [List.mem_range] at hk
          rw [decide_eq_true_eq] at hlt
          symm
          refine List.any_eq_true.mpr ⟨k + 1, List.mem_range.mpr (by simp; omega), ?_⟩
          rw [decide_eq_true_eq, balanceAt_cons]
          omega
      rw [hcond]
      have htot : (n + d) + balanceAt rest rest.length =
          n + balanceAt (c :: rest) (c :: rest).length := by
        show _ = n + balanceAt (c :: rest) (rest.length + 1)
        rw [balanceAt_cons]
        ring
      rw [htot]

/-! ## Characterizing the inside-ICU-block scan (for C9) -/

theorem drop_cons_of_get {s : List Char} {i : Nat} {c : Char} (h : s.get? i = some c) :
    s.drop i = c :: s.drop (i + 1) := by
  obtain ⟨hlt, hget⟩ := List.get?_eq_some.mp h
  rw [List.drop_eq_get_cons hlt, hget]

theorem matchIcuHeader_none_of_ne {c : Char} {tail : List Char} (hc : ¬ c = '{') :
    matchIcuHeader (c :: tail) = none := by
  simp only [matchIcuHeader]
  rw [if_neg hc]

theorem headerAt_false_of_get {s : List Char} {i : Nat} {c : Char}
    (h : s.get? i = some c) (hc : ¬ c = '{') : ¬ headerAt s i := by
  unfold headerAt
  rw [drop_cons_of_get h, matchIcuHeader_none_of_ne hc]
  simp

theorem headerAt_false_of_none {s : List Char} {i : Nat}
    (h : s.get? i = none) : ¬ headerAt s i := by
  unfold headerAt
  rw [List.drop_eq_nil_of_le (List.get?_eq_none.mp h)]
  simp [matchIcuHeader]

theorem flagP_succ (s : List Char) (i : Nat) :
    flagP s (i + 1) ↔ (headerAt s i ∨ (flagP s i ∧ ¬ resetAt s i)) := by
  constructor
  · rintro ⟨j, hj, hh, hnr⟩
    by_cases hji : j = i
    · subst hji
      exact Or.inl hh
    · have hji' : j < i := by omega
      exact Or.inr ⟨⟨j, hji', hh, fun k hk1 hk2 => hnr k hk1 (by omega)⟩,
        hnr i hji' (by omega)⟩
  · rintro (hh | ⟨⟨j, hj, hh, hnr⟩, hnri⟩)
    · exact ⟨i, by omega, hh, fun k hk1 hk2 => absurd hk2 (by omega)⟩
    · refine ⟨j, by omega, hh, ?_⟩
      intro k hk1 hk2
      by_cases hki : k = i
      · subst hki
        exact hnri
      · exact hnr k hk1 (by omega)

theorem insideAux_spec (s : List Char) :
    ∀ (c i : Nat) (depth : Int) (flag : Bool),
      depth = balanceAt s i → (flag = true ↔ flagP s i) →
      (isInsideIcuBlockAux s c i depth flag = true ↔
        (0 < balanceAt s (i + c) ∧ flagP s (i + c))) := by
  intro c
  induction c with
  | zero =>
    intro i depth flag hd hf
    subst hd
    show (decide (balanceAt s i > 0) && flag) = true ↔ _
    rw [Nat.add_zero, Bool.and_eq_true, decide_eq_true_eq]
    constructor
    · rintro ⟨h1, h2⟩
      exact ⟨h1, hf.mp h2⟩
    · rintro ⟨h1, h2⟩
      exact ⟨h1, hf.mpr h2⟩
  | succ c ih =>
    intro i depth flag hd hf
    have harith : i + (c + 1) = (i + 1) + c := by omega
    rw [harith]
    by_cases hb1 : s.get? i = some '{'
    · have hstep : isInsideIcuBlockAux s (c + 1) i depth flag =
          isInsideIcuBlockAux s c (i + 1) (depth + 1)
            (flag || (matchIcuHeader (s.drop i)).isSome) := by
        simp only [isInsideIcuBlockAux]
        rw [if_pos hb1]
      rw [hstep]
      apply ih (i + 1)
      · rw [balanceAt_succ, hb1, hd]
        simp
      · rw [flagP_succ]
        have hnr : ¬ resetAt s i := by
          rintro ⟨hg, _⟩
          rw [hb1] at hg
          cases hg
        rw [Bool.or_eq_true, hf]
        unfold headerAt
        constructor
        · rintro (h1 | h2)
          · exact Or.inr ⟨h1, hnr⟩
          · exact Or.inl h2
        · rintro (h1 | ⟨h2, _⟩)
          · exact Or.inr h1
          · exact Or.inl h2
    · by_cases hb2 : s.get? i = some '}'
      · have hstep : isInsideIcuBlockAux s (c + 1) i depth flag =
            isInsideIcuBlockAux s c (i + 1) (depth - 1)
              (if depth - 1 = 0 then false else flag) := by
          simp only [isInsideIcuBlockAux]
          rw [if_neg hb1, if_pos hb2]
        rw [hstep]
        have hbal : balanceAt s (i + 1) = depth - 1 := by
          rw [balanceAt_succ, if_neg hb1, if_pos hb2, hd]
          ring
        apply ih (i + 1)
        · rw [hbal]
        · rw [flagP_succ]
          have hha : ¬ headerAt s i := headerAt_false_of_get hb2 (by decide)
          have hres : resetAt s i ↔ depth - 1 = 0 := by
            unfold resetAt
            rw [hbal]
            constructor
            · rintro ⟨_, h⟩
              exact h
            · intro h
              exact ⟨hb2, h⟩
          by_cases hz : depth - 1 = 0
          · rw [if_pos hz]
            constructor
            · intro h
              cases h
            · rintro (h | ⟨_, hr⟩)
              · exact absurd h hha
              · exact absurd (hres.mpr hz) hr
          · rw [if_neg hz]
            rw [hf]
            constructor
            · intro h
              exact Or.inr ⟨h, fun hr => hz (hres.mp hr)⟩
            · rintro (h | ⟨h, _⟩)
              · exact absurd h hha
              · exact h
      · have hstep : isInsideIcuBlockAux s (c + 1) i depth flag =
            isInsideIcuBlockAux s c (i + 1) depth flag := by
          simp only [isInsideIcuBlockAux]
          rw [if_neg hb1, if_neg hb2]
        rw [hstep]
        have hbal : balanceAt s (i + 1) = depth := by
          rw [balanceAt_succ, if_neg hb1, if_neg hb2, hd]
          ring
        apply ih (i + 1)
        · rw [hbal]
        · rw [flagP_succ]
          have hha : ¬ headerAt s i := by
            rcases hg : s.get? i with _ | c'
            · exact headerAt_false_of_none hg
            · refine headerAt_false_of_get hg ?_
              intro hcc
              subst hcc
              exact hb1 hg
          have hres : ¬ resetAt s i := by
            rintro ⟨hg, _⟩
            exact hb2 hg
          rw [hf]
          constructor
          · intro h
            exact Or.inr ⟨h, hres⟩
          · rintro (h | ⟨h, _⟩)
            · exact absurd h hha
            · exact h

theorem isInsideIcuBlock_iff (s : List Char) (p : Nat) :
    isInsideIcuBlock s p = true ↔ (0 < balanceAt s p ∧ flagP s p) := by
  have h0 : ((false : Bool) = true) ↔ flagP s 0 := by
    constructor
    · intro h
      cases h
    · rintro ⟨j, hj, _⟩
      omega
  have h := insideAux_spec s p 0 0 false rfl h0
  rw [Nat.zero_add] at h
  exact h

theorem getIcuSegmentsAux_start_ge (s : List Char) :
    ∀ d i, s.length - i ≤ d → ∀ seg ∈ getIcuSegmentsAux s i, i ≤ seg.start := by
  intro d
  induction d with
  | zero =>
    intro i hd seg hmem
    rw [getIcuSegmentsAux_none (findHeaderFrom_of_le (by omega))] at hmem
    cases hmem
  | succ d ih =>
    intro i hd seg hmem
    rcases hm : findHeaderFrom s i with _ | ⟨j, n, t, e⟩
    · rw [getIcuSegmentsAux_none hm] at hmem
      cases hmem
    · rw [getIcuSegmentsAux_some hm] at hmem
      have hb := findHeaderFrom_bounds hm
      rcases List.mem_cons.mp hmem with h1 | h2
      · subst h1
        show i ≤ j
        omega
      · have := ih e (by omega) seg h2
        omega

theorem getIcuSegmentsAux_chain (s : List Char) :
    ∀ d i, s.length - i ≤ d →
      List.Chain' (fun a b => a.start < b.start) (getIcuSegmentsAux s i) := by
  intro d
  induction d with
  | zero =>
    intro i hd
    rw [getIcuSegmentsAux_none (findHeaderFrom_of_le (by omega))]
    exact List.chain'_nil
  | succ d ih =>
    intro i hd
    rcases hm : findHeaderFrom s i with _ | ⟨j, n, t, e⟩
    · rw [getIcuSegmentsAux_none hm]
      exact List.chain'_nil
    · rw [getIcuSegmentsAux_some hm]
      have hb := findHeaderFrom_bounds hm
      refine List.chain'_cons'.mpr ⟨?_, ih e (by omega)⟩
      intro b hb'
      have hbmem : b ∈ getIcuSegmentsAux s e := List.mem_of_mem_head? hb'
      have := getIcuSegmentsAux_start_ge s (s.length - e) e le_rfl b hbmem
      show j < b.start
      omega

/-! ## Key-aggregation lemmas (for C5, C6, C10) -/

theorem lookupAssoc_cons {α : Type} (p : List Char × α) (rest : List (List Char × α))
    (k : List Char) :
    lookupAssoc (p :: rest) k = if p.1 = k then some p.2 else lookupAssoc rest k := by
  unfold lookupAssoc
  by_cases h : p.1 = k
  · rw [List.find?_cons_of_pos _ (by simp [h]), if_pos h]
    rfl
  · rw [List.find?_cons_of_neg _ (by simp [h]), if_neg h]

theorem lookupAssoc_isSome_any {α : Type} (m : List (List Char × α)) (k : List Char) :
    (lookupAssoc m k).isSome = m.any fun p => p.1 = k := by
  induction m with
  | nil => rfl
  | cons p rest ih =>
    rw [lookupAssoc_cons, List.any_cons]
    by_cases h : p.1 = k
    · simp [h]
    · simp [h, ih]

theorem lookupAssoc_mapSet {α : Type} (tr : List (List Char × α))
    (e k : List Char) (v : α) :
    lookupAssoc (tr.map fun p => if p.1 = e then (e, v) else p) k =
      if k = e then (lookupAssoc tr e).map (fun _ => v) else lookupAssoc tr k := by
  induction tr with
  | nil =>
    by_cases hke : k = e <;> simp [hke, lookupAssoc]
  | cons p rest ih =>
    simp only [List.map_cons]
    by_cases hpe : p.1 = e
    · rw [if_pos hpe, lookupAssoc_cons, lookupAssoc_cons, if_pos hpe]
      by_cases hke : k = e
      · rw [if_pos (show (e, v).1 = k by simp [hke]), if_pos hke]
        rfl
      · rw [if_neg (show ¬ (e, v).1 = k by simpa using fun h => hke h.symm), ih,
            if_neg hke, if_neg hke, lookupAssoc_cons,
            if_neg (show ¬ p.1 = k from fun h => hke (by rw [← h, hpe]))]
    · rw [if_neg hpe, lookupAssoc_cons]
      by_cases hpk : p.1 = k
      · have hke : ¬ k = e := fun h => hpe (by rw [hpk, h])
        rw [if_pos hpk, if_neg hke, lookupAssoc_cons, if_pos hpk]
      · rw [if_neg hpk, ih]
        by_cases hke : k = e
        · rw [if_pos hke, if_pos hke, lookupAssoc_cons, if_neg hpe]
        · rw [if_neg hke, if_neg hke, lookupAssoc_cons, if_neg hpk]

theorem lookupAssoc_append_single {α : Type} (m : List (List Char × α))
    (e k : List Char) (v : α) :
    lookupAssoc (m ++ [(e, v)]) k =
      match lookupAssoc m k with
      | some w => some w
      | none => if k = e then some v else none := by
  induction m with
  | nil =>
    show lookupAssoc [(e, v)] k = if k = e then some v else none
    rw [lookupAssoc_cons]
    by_cases hke : k = e
    · rw [if_pos (show (e, v).1 = k by simp [hke]), if_pos hke]
    · rw [if_neg (show ¬ (e, v).1 = k by simpa using fun h => hke h.symm), if_neg hke]
      rfl
  | cons p rest ih =>
    show lookupAssoc (p :: (rest ++ [(e, v)])) k = _
    rw [lookupAssoc_cons, lookupAssoc_cons]
    by_cases hpk : p.1 = k
    · rw [if_pos hpk, if_pos hpk]
    · rw [if_neg hpk, if_neg hpk, ih]

theorem lookupAssoc_setAssoc {α : Type} (tr : List (List Char × α))
    (e k : List Char) (v : α) :
    lookupAssoc (setAssoc tr e v) k = if k = e then some v else lookupAssoc tr k := by
  unfold setAssoc
  by_cases hany : tr.any fun p => p.1 = e
  · rw [if_pos hany, lookupAssoc_mapSet]
    by_cases hke : k = e
    · rw [if_pos hke, if_pos hke]
      have : (lookupAssoc tr e).isSome = true := by
        rw [lookupAssoc_isSome_any]
        exact hany
      obtain ⟨w, hw⟩ := Option.isSome_iff_exists.mp this
      rw [hw]
      rfl
    · rw [if_neg hke, if_neg hke]
  · rw [if_neg hany, lookupAssoc_append_single]
    rcases ho : lookupAssoc tr k with _ | w
    · rfl
    · show some w = if k = e then some v else some w
      have hke : ¬ k = e := by
        intro h
        apply hany
        rw [← lookupAssoc_isSome_any, ← h, ho]
        rfl
      rw [if_neg hke]

theorem lookupAssoc_mapUpdate {α : Type} (tr : List (List Char × α))
    (e k : List Char) (f : α → α) :
    lookupAssoc (tr.map fun p => if p.1 = e then (p.1, f p.2) else p) k =
      if k = e then (lookupAssoc tr e).map f else lookupAssoc tr k := by
  induction tr with
  | nil =>
    by_cases hke : k = e <;> simp [hke, lookupAssoc]
  | cons p rest ih =>
    simp only [List.map_cons]
    by_cases hpe : p.1 = e
    · rw [if_pos hpe, lookupAssoc_cons, lookupAssoc_cons, if_pos hpe]
      by_cases hke : k = e
      · rw [if_pos (show (p.1, f p.2).1 = k by simp [hpe, hke]), if_pos hke]
        rfl
      · rw [if_neg (show ¬ (p.1, f p.2).1 = k by
              simpa [hpe] using fun h => hke h.symm), ih,
            if_neg hke, if_neg hke, lookupAssoc_cons,
            if_neg (show ¬ p.1 = k from fun h => hke (by rw [← h, hpe]))]
    · rw [if_neg hpe, lookupAssoc_cons]
      by_cases hpk : p.1 = k
      · have hke : ¬ k = e := fun h => hpe (by rw [hpk, h])
        rw [if_pos hpk, if_neg hke, lookupAssoc_cons, if_pos hpk]
      · rw [if_neg hpk, ih]
        by_cases hke : k = e
        · rw [if_pos hke, if_pos hke, lookupAssoc_cons, if_neg hpe]
        · rw [if_neg hke, if_neg hke, lookupAssoc_cons, if_neg hpk]

theorem lookupAssoc_none_of_not_any {α : Type} {m : List (List Char × α)}
    {k : List Char} (h : ¬ (m.any fun p => p.1 = k) = true) :
    lookupAssoc m k = none := by
  rcases ho : lookupAssoc m k with _ | w
  · rfl
  · exfalso
    apply h
    rw [← lookupAssoc_isSome_any, ho]
    rfl

theorem processEntry_lookup (d : ArbDoc) (m : List (List Char × TranslationKey))
    (e : List Char × ArbValue) (k : List Char) (hk : ¬ isMetaKey k = true) :
    lookupAssoc (processEntry d m e) k =
      if e.1 = k then applyVal d k (lookupAssoc m k) e.2 else lookupAssoc m k := by
  unfold processEntry
  by_cases hme : isMetaKey e.1 = true
  · rw [if_pos hme, if_neg (show ¬ e.1 = k from fun h => hk (h ▸ hme))]
  · rw [if_neg hme]
    show lookupAssoc ((if m.any (fun p => p.1 = e.1) then m
        else m ++ [(e.1, mkTranslationKey d.entries e.1)]).map fun p =>
          if p.1 = e.1 then (p.1, updateTranslations d e.2 p.2) else p) k = _
    by_cases hany : m.any fun p => p.1 = e.1
    · rw [if_pos hany, lookupAssoc_mapUpdate]
      by_cases hek : e.1 = k
      · rw [if_pos (show k = e.1 from hek.symm), if_pos hek]
        have hsome : (lookupAssoc m e.1).isSome = true := by
          rw [lookupAssoc_isSome_any]
          exact hany
        obtain ⟨tk, htk⟩ := Option.isSome_iff_exists.mp hsome
        rw [htk, show lookupAssoc m k = some tk from hek ▸ htk]
        rfl
      · rw [if_neg (show ¬ k = e.1 from fun h => hek h.symm), if_neg hek]
    · rw [if_neg hany, lookupAssoc_mapUpdate]
      have hnone : lookupAssoc m e.1 = none := lookupAssoc_none_of_not_any hany
      by_cases hek : e.1 = k
      · have hke : k = e.1 := hek.symm
        rw [if_pos hke, if_pos hek, lookupAssoc_append_single, hnone]
        show Option.map (updateTranslations d e.2)
            (if e.1 = e.1 then some (mkTranslationKey d.entries e.1) else none) =
          applyVal d k (lookupAssoc m k) e.2
        rw [if_pos rfl, hke, hnone]
        rfl
      · rw [if_neg (show ¬ k = e.1 from fun h => hek h.symm), if_neg hek,
            lookupAssoc_append_single]
        rcases ho : lookupAssoc m k with _ | w
        · show (if k = e.1 then some (mkTranslationKey d.entries e.1) else none) = none
          rw [if_neg (show ¬ k = e.1 from fun h => hek h.symm)]
        · rfl

theorem foldl_processEntry_lookup (d : ArbDoc) (k : List Char)
    (hk : ¬ isMetaKey k = true) :
    ∀ (es : List (List Char × ArbValue)) (m : List (List Char × TranslationKey)),
      lookupAssoc (es.foldl (processEntry d) m) k =
        (es.filter fun p => p.1 = k).foldl (fun o p => applyVal d k o p.2)
          (lookupAssoc m k) := by
  intro es
  induction es with
  | nil =>
    intro m
    rfl
  | cons e es ih =>
    intro m
    show lookupAssoc (es.foldl (processEntry d) (processEntry d m e)) k = _
    rw [ih (processEntry d m e), processEntry_lookup d m e k hk]
    by_cases hek : e.1 = k
    · rw [if_pos hek, List.filter_cons_of_pos (by simp [hek])]
      rfl
    · rw [if_neg hek, List.filter_cons_of_neg (by simp [hek])]

theorem processDoc_lookup (m : List (List Char × TranslationKey)) (d : ArbDoc)
    (k : List Char) (hk : ¬ isMetaKey k = true) :
    lookupAssoc (processDoc m d) k =
      (d.entries.filter fun p => p.1 = k).foldl (fun o p => applyVal d k o p.2)
        (lookupAssoc m k) :=
  foldl_processEntry_lookup d k hk d.entries m

theorem applyVal_foldl_some (d : ArbDoc) (k : List Char) :
    ∀ (ps : List (List Char × ArbValue)) (tk : TranslationKey),
      ps.foldl (fun o p => applyVal d k o p.2) (some tk) =
        some { tk with
          translations := ps.foldl (fun tr p => setAssoc tr d.locale p.2) tk.translations } := by
  intro ps
  induction ps with
  | nil =>
    intro tk
    rfl
  | cons p ps ih =>
    intro tk
    show ps.foldl _ (applyVal d k (some tk) p.2) = _
    have h1 : applyVal d k (some tk) p.2 =
        some { tk with translations := setAssoc tk.translations d.locale p.2 } := rfl
    rw [h1, ih]
    rfl

theorem applyVal_foldl_none (d : ArbDoc) (k : List Char)
    (p : List Char × ArbValue) (ps : List (List Char × ArbValue)) :
    (p :: ps).foldl (fun o q => applyVal d k o q.2) none =
      some { mkTranslationKey d.entries k with
        translations := (p :: ps).foldl (fun tr q => setAssoc tr d.locale q.2) [] } := by
  show ps.foldl _ (applyVal d k none p.2) = _
  have h1 : applyVal d k none p.2 =
      some { mkTranslationKey d.entries k with translations := setAssoc [] d.locale p.2 } := rfl
  rw [h1, applyVal_foldl_some]
  rfl

theorem lookup_setAssocFold (Lw : List Char) :
    ∀ (ps : List (List Char × ArbValue)) (tr : List (List Char × ArbValue))
      (L : List Char),
      lookupAssoc (ps.foldl (fun tr p => setAssoc tr Lw p.2) tr) L =
        match ps.getLast? with
        | some q => if L = Lw then some q.2 else lookupAssoc tr L
        | none => lookupAssoc tr L := by
  intro ps
  induction ps with
  | nil =>
    intro tr L
    rfl
  | cons p ps ih =>
    intro tr L
    show lookupAssoc (ps.foldl _ (setAssoc tr Lw p.2)) L = _
    rw [ih]
    rcases ps with _ | ⟨q, ps'⟩
    · show lookupAssoc (setAssoc tr Lw p.2) L = _
      rw [lookupAssoc_setAssoc]
      rfl
    · rw [List.getLast?_cons_cons]
      rcases hl : (q :: ps').getLast? with _ | r
      · have : (q :: ps').getLast?.isSome = true := by
          rw [List.getLast?_isSome]
          simp
        rw [hl] at this
        cases this
      · show (if L = Lw then some r.2 else lookupAssoc (setAssoc tr Lw p.2) L) =
          (if L = Lw then some r.2 else lookupAssoc tr L)
        by_cases hL : L = Lw
        · rw [if_pos hL, if_pos hL]
        · rw [if_neg hL, if_neg hL, lookupAssoc_setAssoc, if_neg hL]

theorem processEntry_lookup_meta (d : ArbDoc) (m : List (List Char × TranslationKey))
    (e : List Char × ArbValue) (k : List Char) (hk : isMetaKey k = true) :
    lookupAssoc (processEntry d m e) k = lookupAssoc m k := by
  unfold processEntry
  by_cases hme : isMetaKey e.1 = true
  · rw [if_pos hme]
  · rw [if_neg hme]
    have hke : ¬ k = e.1 := fun h => hme (h ▸ hk)
    show lookupAssoc ((if m.any (fun p => p.1 = e.1) then m
        else m ++ [(e.1, mkTranslationKey d.entries e.1)]).map fun p =>
          if p.1 = e.1 then (p.1, updateTranslations d e.2 p.2) else p) k = _
    by_cases hany : m.any fun p => p.1 = e.1
    · rw [if_pos hany, lookupAssoc_mapUpdate, if_neg hke]
    · rw [if_neg hany, lookupAssoc_mapUpdate, if_neg hke, lookupAssoc_append_single]
      rcases ho : lookupAssoc m k with _ | w
      · show (if k = e.1 then some (mkTranslationKey d.entries e.1) else none) = none
        rw [if_neg hke]
      · rfl

theorem processDoc_lookup_meta (m : List (List Char × TranslationKey)) (d : ArbDoc)
    (k : List Char) (hk : isMetaKey k = true) :
    lookupAssoc (processDoc m d) k = lookupAssoc m k := by
  unfold processDoc
  generalize m = m0
  induction d.entries generalizing m0 with
  | nil => rfl
  | cons e es ih =>
    show lookupAssoc (es.foldl (processEntry d) (processEntry d m0 e)) k = _
    rw [ih (processEntry d m0 e), processEntry_lookup_meta d m0 e k hk]

theorem foldl_processDoc_lookup_meta (k : List Char) (hk : isMetaKey k = true) :
    ∀ (docs : List ArbDoc) (m : List (List Char × TranslationKey)),
      lookupAssoc (docs.foldl processDoc m) k = lookupAssoc m k := by
  intro docs
  induction docs with
  | nil =>
    intro m
    rfl
  | cons d ds ih =>
    intro m
    show lookupAssoc (ds.foldl processDoc (processDoc m d)) k = _
    rw [ih (processDoc m d), processDoc_lookup_meta m d k hk]

theorem metaOf_update (d : ArbDoc) (v : ArbValue) (tk : TranslationKey) :
    metaOf (updateTranslations d v tk) = metaOf tk := rfl

theorem foldl_processDoc_frame (k : List Char) (hk : ¬ isMetaKey k = true) :
    ∀ (docs : List ArbDoc) (m : List (List Char × TranslationKey)) (tk : TranslationKey),
      lookupAssoc m k = some tk →
      ∃ tk', lookupAssoc (docs.foldl processDoc m) k = some tk' ∧
        metaOf tk' = metaOf tk := by
  intro docs
  induction docs with
  | nil =>
    intro m tk h
    exact ⟨tk, h, rfl⟩
  | cons d ds ih =>
    intro m tk h
    show ∃ tk', lookupAssoc (ds.foldl processDoc (processDoc m d)) k = some tk' ∧ _
    have h1 : lookupAssoc (processDoc m d) k =
        some { tk with
          translations := (d.entries.filter fun p => p.1 = k).foldl
            (fun tr p => setAssoc tr d.locale p.2) tk.translations } := by
      rw [processDoc_lookup m d k hk, h, applyVal_foldl_some]
    obtain ⟨tk', h2, h3⟩ := ih _ _ h1
    exact ⟨tk', h2, by rw [h3]; rfl⟩

theorem definesKey_not_meta {d : ArbDoc} {k : List Char}
    (h : definesKey d k = true) : ¬ isMetaKey k = true := by
  unfold definesKey at h
  rw [Bool.and_eq_true] at h
  intro hmeta
  rw [hmeta] at h
  cases h.1

theorem filter_ne_nil_of_definesKey {d : ArbDoc} {k : List Char}
    (h : definesKey d k = true) :
    ∃ p ps, d.entries.filter (fun p => p.1 = k) = p :: ps := by
  unfold definesKey at h
  rw [Bool.and_eq_true] at h
  obtain ⟨x, hx, hxk⟩ := List.any_eq_true.mp h.2
  rcases hf : d.entries.filter (fun p => p.1 = k) with _ | ⟨p, ps⟩
  · exact absurd hxk (List.filter_eq_nil.mp hf x hx)
  · exact ⟨p, ps, hf⟩

theorem definesKey_false_filter_nil {d : ArbDoc} {k : List Char}
    (hk : ¬ isMetaKey k = true) (h : ¬ definesKey d k = true) :
    d.entries.filter (fun p => p.1 = k) = [] := by
  unfold definesKey at h
  rw [Bool.and_eq_true] at h
  apply List.filter_eq_nil.mpr
  intro p hp
  intro hpk
  apply h
  constructor
  · have hfalse : isMetaKey k = false := by
      cases hb : isMetaKey k
      · rfl
      · exact absurd hb hk
    rw [hfalse]
    rfl
  · exact List.any_eq_true.mpr ⟨p, hp, hpk⟩

theorem foldl_processDoc_firstDef (k : List Char) :
    ∀ (docs : List ArbDoc) (m : List (List Char × TranslationKey)) (dd : ArbDoc),
      lookupAssoc m k = none →
      docs.find? (fun d => definesKey d k) = some dd →
      ∃ tk', lookupAssoc (docs.foldl processDoc m) k = some tk' ∧
        metaOf tk' = (k, docDescription dd.entries k,
          parsePlaceholders (docRawPlaceholders dd.entries k)) := by
  intro docs
  induction docs with
  | nil =>
    intro m dd _ hf
    cases hf
  | cons d ds ih =>
    intro m dd h hf
    have hk : ¬ isMetaKey k = true := by
      have hdd := List.find?_some hf
      exact definesKey_not_meta hdd
    by_cases hdef : definesKey d k = true
    · rw [show (d :: ds).find? (fun d => definesKey d k) = some d from
          List.find?_cons_of_pos _ hdef] at hf
      injection hf with hf
      subst hf
      obtain ⟨p, ps, hfil⟩ := filter_ne_nil_of_definesKey hdef
      have h1 : lookupAssoc (processDoc m d) k =
          some { mkTranslationKey d.entries k with
            translations := (p :: ps).foldl (fun tr q => setAssoc tr d.locale q.2) [] } := by
        rw [processDoc_lookup m d k hk, h, hfil, applyVal_foldl_none]
      obtain ⟨tk', h2, h3⟩ := foldl_processDoc_frame k hk ds _ _ h1
      refine ⟨tk', h2, ?_⟩
      rw [h3]
      rfl
    · rw [show (d :: ds).find? (fun d => definesKey d k) =
            ds.find? (fun d => definesKey d k) from
          List.find?_cons_of_neg _ (by simpa using hdef)] at hf
      have hnone : lookupAssoc (processDoc m d) k = none := by
        rw [processDoc_lookup m d k hk, h, definesKey_false_filter_nil hk hdef]
        rfl
      exact ih _ _ hnone hf

theorem lookup_setAssocFold_last {Lw L : List Char}
    {ps : List (List Char × ArbValue)} {q : List Char × ArbValue}
    (tr : List (List Char × ArbValue)) (hq : ps.getLast? = some q) :
    lookupAssoc (ps.foldl (fun tr p => setAssoc tr Lw p.2) tr) L =
      if L = Lw then some q.2 else lookupAssoc tr L := by
  rw [lookup_setAssocFold, hq]

theorem processDoc_transHas (m : List (List Char × TranslationKey)) (d : ArbDoc)
    (k L : List Char) (hk : ¬ isMetaKey k = true) :
    transHas (processDoc m d) k L ↔
      transHas m k L ∨ (d.locale = L ∧ definesKey d k = true) := by
  rcases hfil : d.entries.filter (fun p => p.1 = k) with _ | ⟨p, ps⟩
  · have hdef : ¬ definesKey d k = true := by
      intro hdef
      obtain ⟨q, qs, hq⟩ := filter_ne_nil_of_definesKey hdef
      rw [hfil] at hq
      cases hq
    unfold transHas
    rw [processDoc_lookup m d k hk, hfil]
    simp only [List.foldl_nil]
    constructor
    · intro h
      exact Or.inl h
    · rintro (h | ⟨_, h⟩)
      · exact h
      · exact absurd h hdef
  · have hmem : p ∈ d.entries.filter (fun p => p.1 = k) := by
      rw [hfil]
      exact List.mem_cons_self p ps
    obtain ⟨hmem1, hmem2⟩ := List.mem_filter.mp hmem
    have hdef : definesKey d k = true := by
      unfold definesKey
      rw [Bool.and_eq_true]
      refine ⟨?_, List.any_eq_true.mpr ⟨p, hmem1, hmem2⟩⟩
      have hfalse : isMetaKey k = false := by
        cases hb : isMetaKey k
        · rfl
        · exact absurd hb hk
      rw [hfalse]
      rfl
    unfold transHas
    rw [processDoc_lookup m d k hk, hfil]
    have hlast : ∃ q, (p :: ps).getLast? = some q := by
      have h1 : (p :: ps).getLast?.isSome = true := by
        rw [List.getLast?_isSome]
        simp
      exact Option.isSome_iff_exists.mp h1
    obtain ⟨q, hq⟩ := hlast
    rcases ho : lookupAssoc m k with _ | tk
    · rw [applyVal_foldl_none]
      constructor
      · rintro ⟨tk', htk', hsome⟩
        injection htk' with htk'
        subst htk'
        rw [lookup_setAssocFold_last [] hq] at hsome
        by_cases hL : L = d.locale
        · exact Or.inr ⟨hL.symm, hdef⟩
        · rw [if_neg hL] at hsome
          cases hsome
      · rintro (⟨tk, htk, _⟩ | ⟨hL, _⟩)
        · cases htk
        · refine ⟨_, rfl, ?_⟩
          rw [lookup_setAssocFold_last [] hq, if_pos hL.symm]
          rfl
    · rw [applyVal_foldl_some]
      constructor
      · rintro ⟨tk', htk', hsome⟩
        injection htk' with htk'
        subst htk'
        rw [lookup_setAssocFold_last tk.translations hq] at hsome
        by_cases hL : L = d.locale
        · exact Or.inr ⟨hL.symm, hdef⟩
        · rw [if_neg hL] at hsome
          exact Or.inl ⟨tk, rfl, hsome⟩
      · rintro (⟨tk0, htk0, hsome⟩ | ⟨hL, _⟩)
        · injection htk0 with htk0
          subst htk0
          refine ⟨_, rfl, ?_⟩
          rw [lookup_setAssocFold_last tk.translations hq]
          by_cases hL : L = d.locale
          · rw [if_pos hL]
            rfl
          · rw [if_neg hL]
            exact hsome
        · refine ⟨_, rfl, ?_⟩
          rw [lookup_setAssocFold_last tk.translations hq, if_pos hL.symm]
          rfl

theorem foldl_processDoc_transHas (k L : List Char) (hk : ¬ isMetaKey k = true) :
    ∀ (docs : List ArbDoc) (m : List (List Char × TranslationKey)),
      transHas (docs.foldl processDoc m) k L ↔
        transHas m k L ∨ ∃ d ∈ docs, d.locale = L ∧ definesKey d k = true := by
  intro docs
  induction docs with
  | nil =>
    intro m
    simp only [List.foldl_nil, List.not_mem_nil]
    constructor
    · intro h
      exact Or.inl h
    · rintro (h | ⟨d, hd, _⟩)
      · exact h
      · exact absurd hd (by simp)
  | cons d ds ih =>
    intro m
    show transHas (ds.foldl processDoc (processDoc m d)) k L ↔ _
    rw [ih, processDoc_transHas m d k L hk]
    constructor
    · rintro ((h | ⟨h1, h2⟩) | ⟨d', hd', h1, h2⟩)
      · exact Or.inl h
      · exact Or.inr ⟨d, List.mem_cons_self d ds, h1, h2⟩
      · exact Or.inr ⟨d', List.mem_cons_of_mem d hd', h1, h2⟩
    · rintro (h | ⟨d', hd', h1, h2⟩)
      · exact Or.inl (Or.inl h)
      · rcases List.mem_cons.mp hd' with hdd | hdd
        · subst hdd
          exact Or.inl (Or.inr ⟨h1, h2⟩)
        · exact Or.inr ⟨d', hdd, h1, h2⟩

theorem keysAligned_processEntry (d : ArbDoc) (m : List (List Char × TranslationKey))
    (e : List Char × ArbValue) (h : keysAligned m) :
    keysAligned (processEntry d m e) := by
  unfold processEntry
  by_cases hme : isMetaKey e.1 = true
  · rw [if_pos hme]
    exact h
  · rw [if_neg hme]
    have hm1 : keysAligned (if m.any (fun p => p.1 = e.1) then m
        else m ++ [(e.1, mkTranslationKey d.entries e.1)]) := by
      by_cases hany : m.any fun p => p.1 = e.1
      · rwa [if_pos hany]
      · rw [if_neg hany]
        intro q hq
        rcases List.mem_append.mp hq with h1 | h1
        · exact h q h1
        · rw [List.mem_singleton] at h1
          subst h1
          rfl
    intro q hq
    obtain ⟨p, hp, hpq⟩ := List.mem_map.mp hq
    by_cases hpe : p.1 = e.1
    · rw [if_pos hpe] at hpq
      subst hpq
      exact hm1 p hp
    · rw [if_neg hpe] at hpq
      subst hpq
      exact hm1 p hp

theorem keysAligned_processDoc (m : List (List Char × TranslationKey)) (d : ArbDoc)
    (h : keysAligned m) : keysAligned (processDoc m d) := by
  unfold processDoc
  generalize m = m0 at h ⊢
  induction d.entries generalizing m0 with
  | nil => exact h
  | cons e es ih =>
    exact ih (processEntry d m0 e) (keysAligned_processEntry d m0 e h)

theorem keysAligned_foldl (docs : List ArbDoc) :
    ∀ (m : List (List Char × TranslationKey)), keysAligned m →
      keysAligned (docs.foldl processDoc m) := by
  induction docs with
  | nil =>
    intro m h
    exact h
  | cons d ds ih =>
    intro m h
    exact ih (processDoc m d) (keysAligned_processDoc m d h)

theorem find?_map_values (k : List Char) :
    ∀ (m : List (List Char × TranslationKey)), keysAligned m →
      (m.map (·.2)).find? (fun tk => tk.key = k) = lookupAssoc m k := by
  intro m
  induction m with
  | nil =>
    intro _
    rfl
  | cons p rest ih =>
    intro h
    have hkey : p.2.key = p.1 := h p (List.mem_cons_self p rest)
    have hrest : keysAligned rest := fun q hq => h q (List.mem_cons_of_mem p hq)
    simp only [List.map_cons]
    rw [lookupAssoc_cons]
    by_cases hpk : p.1 = k
    · rw [if_pos hpk,
        show (p.2 :: rest.map (·.2)).find? (fun tk => tk.key = k) = some p.2 from
          List.find?_cons_of_pos _ (by simp [hkey, hpk])]
    · rw [if_neg hpk,
        show (p.2 :: rest.map (·.2)).find? (fun tk => tk.key = k) =
            (rest.map (·.2)).find? (fun tk => tk.key = k) from
          List.find?_cons_of_neg _ (by simp [hkey, hpk])]
      exact ih hrest

theorem parseModule_find (docs : List ArbDoc) (k : List Char) :
    (parseModule docs).find? (fun tk => tk.key = k) =
      lookupAssoc (docs.foldl processDoc []) k := by
  unfold parseModule
  exact find?_map_values k _ (keysAligned_foldl docs [] (by intro p hp; cases hp))

/-- An English document defining `hello` with `@hello` metadata. -/
def docEnTest : ArbDoc :=
  ⟨"en".toList, [("hello".toList, ArbValue.str "Hello".toList),
    ("@hello".toList, ArbValue.meta (some "Greeting".toList) none)]⟩

/-- An Arabic document defining `hello` with different `@hello` metadata. -/
def docArTest : ArbDoc :=
  ⟨"ar".toList, [("hello".toList, ArbValue.str "Ahlan".toList),
    ("@hello".toList, ArbValue.meta (some "Different".toList) none)]⟩

/-- Two documents with the same locale both defining key `k`. -/
def docDupA : ArbDoc := ⟨"en".toList, [("k".toList, ArbValue.str "first".toList)]⟩

/-- Second same-locale document, processed later. -/
def docDupB : ArbDoc := ⟨"en".toList, [("k".toList, ArbValue.str "second".toList)]⟩

/-! ## Claim theorems -/

/-- C1: the claim (and the source's own doc comment) state that
`extractPlaceholders("{count, plural, =0{none} other{{count} items}}")` is
exactly `{"count"}`.  The code disagrees: the block-skipping branch of pass 2
is unreachable (the simple-placeholder regex `^\{(\w+)\}` and the ICU header
regex cannot match at the same position), so pass 2 walks into the case
bodies and also collects `"none"` from `=0{none}`; the result is
`["count", "none"]`.  (`"=0"` indeed never appears: `=` is not a word
character.) -/
theorem claim_C1_eval :
    extractPlaceholders pluralNestedText = ["count".toList, "none".toList] := by
  rw [extractPlaceholders_eqF]
  decide

set_option maxRecDepth 8192 in
/-- C2 counterexample: on `"{a, plural, other{{b, plural, other{x}}}}"` the
second `exec` resumes after the first *header match* (inside the first
block), so the nested header produces a second segment lying inside the
first: consecutive segments violate `s.stop ≤ t.start`. -/
theorem claim_C2_counterexample :
    ¬ List.Chain' (fun s t => s.stop ≤ t.start) (getIcuSegments nestedIcuText) := by
  rw [getIcuSegments_eqF]
  intro h
  have h1 : (getIcuSegmentsAuxF nestedIcuText (nestedIcuText.length + 1) 0).map
      (fun seg => (seg.start, seg.stop)) = [(0, 41), (18, 39)] := by decide
  have h2 : List.Chain' (fun x y => x.2 ≤ y.1)
      ((getIcuSegmentsAuxF nestedIcuText (nestedIcuText.length + 1) 0).map
        (fun seg => (seg.start, seg.stop))) := by
    rw [List.chain'_map]
    exact h
  rw [h1] at h2
  exact absurd (List.chain'_cons.mp h2).1 (by decide)

/-- C2 amended: `getIcuSegments` returns segments in left-to-right discovery
order — consecutive segments have strictly increasing `start` — but the scan
resumes after each matched header rather than after the resolved block, so a
segment may start inside an earlier segment's `[start, stop)` range when an
ICU header occurs nested inside a case body. -/
theorem claim_C2_amended (s : List Char) :
    List.Chain' (fun a b => a.start < b.start) (getIcuSegments s) := by
  unfold getIcuSegments
  exact getIcuSegmentsAux_chain s s.length 0 (by omega)

set_option maxRecDepth 16384 in
/-- C3: the claim states `extractPlaceholders` on the compound message is
exactly `{"gender", "count"}`; the code also collects the case-body literals
`"He"` and `"They"` (same dead-skip defect as C1).  The segment count and
compound-message parts of the claim do hold: 2 segments, compound. -/
theorem claim_C3_eval :
    extractPlaceholders compoundText =
      ["gender".toList, "count".toList, "He".toList, "They".toList] ∧
    (getIcuSegments compoundText).length = 2 ∧
    isCompoundMessage compoundText = true := by
  refine ⟨?_, ?_, ?_⟩
  · rw [extractPlaceholders_eqF]
    decide
  · rw [getIcuSegments_eqF]
    decide
  · unfold isCompoundMessage
    rw [getIcuSegments_eqF]
    decide

/-- C4: `validateIcuSyntax` is a total function returning a structured
result, and for every input it equals the specification's description
(`specValidateIcu`): trivially valid without ICU syntax; "Unmatched closing
brace" when some prefix balance goes negative; else "Unmatched opening
brace" when the total balance is nonzero; else the type-specific
missing-`other` error for a first ICU type of plural/selectordinal without
the literal `other{`; valid otherwise (select included). -/
theorem claim_C4 (s : List Char) : validateIcuSyntax s = specValidateIcu s := by
  by_cases hicu : hasIcuSyntax s
  · unfold validateIcuSyntax specValidateIcu
    rw [hicu]
    show (match scanBraces s 0 with
        | some e => ValidationResult.mk false (some e)
        | none =>
          match getIcuType s with
          | some t =>
            if (t = IcuType.plural || t = IcuType.selectordinal)
                && !includesSub s "other\x7b".toList then
              ⟨false, some ("ICU ".toList ++ t.str
                ++ " message missing required 'other' case".toList)⟩
            else ⟨true, none⟩
          | none => ⟨true, none⟩) =
      (if (List.range (s.length + 1)).any (fun i => balanceAt s i < 0) then
        ⟨false, some "Unmatched closing brace".toList⟩
      else if balanceAt s s.length ≠ 0 then
        ⟨false, some "Unmatched opening brace".toList⟩
      else
        match getIcuType s with
        | some t =>
          if (t = IcuType.plural || t = IcuType.selectordinal)
              && !includesSub s "other\x7b".toList then
            ⟨false, some ("ICU ".toList ++ t.str
              ++ " message missing required 'other' case".toList)⟩
          else ⟨true, none⟩
        | none => ⟨true, none⟩)
    rw [scanBraces_spec s 0 le_rfl]
    simp only [zero_add]
    by_cases h1 : ((List.range (s.length + 1)).any fun k => balanceAt s k < 0) = true
    · rw [if_pos h1, if_pos h1]
    · rw [if_neg h1, if_neg h1]
      by_cases h2 : balanceAt s s.length ≠ 0
      · rw [if_pos h2, if_pos h2]
      · rw [if_neg h2, if_neg h2]
  · unfold validateIcuSyntax specValidateIcu
    rw [show hasIcuSyntax s = false from by
        cases hb : hasIcuSyntax s
        · rfl
        · exact absurd hb hicu]
    rfl

/-- C5: the record for key `k` is created from the first processed document
defining `k`, taking `description` and `placeholders` from that document's
sibling `@k` entry (unset when absent), and any later document changes only
the `translations` field of an existing record. -/
theorem claim_C5 :
    (∀ (docs : List ArbDoc) (k : List Char) (dd : ArbDoc),
        docs.find? (fun d => definesKey d k) = some dd →
        ∃ tk, (parseModule docs).find? (fun tk => tk.key = k) = some tk ∧
          tk.key = k ∧
          tk.description = docDescription dd.entries k ∧
          tk.placeholders = parsePlaceholders (docRawPlaceholders dd.entries k))
    ∧ ∀ (m : List (List Char × TranslationKey)) (doc : ArbDoc)
        (k : List Char) (tk : TranslationKey),
        lookupAssoc m k = some tk → ¬ isMetaKey k = true →
        ∃ tk', lookupAssoc (processDoc m doc) k = some tk' ∧
          tk'.key = tk.key ∧ tk'.description = tk.description ∧
          tk'.placeholders = tk.placeholders := by
  constructor
  · intro docs k dd hf
    obtain ⟨tk', h2, h3⟩ := foldl_processDoc_firstDef k docs [] dd rfl hf
    refine ⟨tk', ?_, ?_⟩
    · rw [parseModule_find]
      exact h2
    · unfold metaOf at h3
      rw [Prod.mk.injEq, Prod.mk.injEq] at h3
      exact ⟨h3.1, h3.2.1, h3.2.2⟩
  · intro m doc k tk h hk
    have h1 : lookupAssoc (processDoc m doc) k =
        some { tk with
          translations := (doc.entries.filter fun p => p.1 = k).foldl
            (fun tr p => setAssoc tr doc.locale p.2) tk.translations } := by
      rw [processDoc_lookup m doc k hk, h, applyVal_foldl_some]
    exact ⟨_, h1, rfl, rfl, rfl⟩

/-- C5 witness: aggregating an English then an Arabic document that both
define `hello` with conflicting `@hello` metadata keeps the English (first)
description and placeholders. -/
theorem claim_C5_witness :
    ∃ tk, (parseModule [docEnTest, docArTest]).find?
        (fun tk => tk.key = "hello".toList) = some tk ∧
      tk.key = "hello".toList ∧
      tk.description = docDescription docEnTest.entries "hello".toList ∧
      tk.placeholders = parsePlaceholders
        (docRawPlaceholders docEnTest.entries "hello".toList) :=
  claim_C5.1 [docEnTest, docArTest] "hello".toList docEnTest (by decide)

/-- C6: in an aggregated module, `translations` of key `k` has an entry for
locale `L` exactly when some document tagged `L` defines `k` as a direct
(non-`@`) entry — never fabricated, never dropped. -/
theorem claim_C6 (docs : List ArbDoc) (k L : List Char) :
    (∃ tk, (parseModule docs).find? (fun tk => tk.key = k) = some tk ∧
        (lookupAssoc tk.translations L).isSome = true)
      ↔ ∃ d ∈ docs, d.locale = L ∧ definesKey d k = true := by
  rw [parseModule_find]
  by_cases hk : isMetaKey k = true
  · constructor
    · rintro ⟨tk, htk, _⟩
      rw [foldl_processDoc_lookup_meta k hk docs []] at htk
      cases htk
    · rintro ⟨d, _, _, hdef⟩
      exact absurd hk (definesKey_not_meta hdef)
  · have h0 : ¬ transHas [] k L := by
      rintro ⟨tk, htk, _⟩
      cases htk
    constructor
    · intro hex
      rcases (foldl_processDoc_transHas k L hk docs []).mp hex with h1 | h1
      · exact absurd h1 h0
      · exact h1
    · intro hex
      exact (foldl_processDoc_transHas k L hk docs []).mpr (Or.inr hex)

/-- C7: a non-empty metadata `placeholders` mapping is authoritative — its
keys are returned verbatim in insertion order, regardless of
`extractPlaceholders`; absent or empty metadata falls back to
`extractPlaceholders`; in particular metadata ordered `b` then `a` yields
`["b", "a"]`. -/
theorem claim_C7 :
    (∀ (text : List Char) (m : List (List Char × PlaceholderInfo)),
        m ≠ [] → getOrderedPlaceholders text (some m) = m.map (·.1))
    ∧ (∀ text : List Char, getOrderedPlaceholders text none = extractPlaceholders text)
    ∧ (∀ text : List Char,
        getOrderedPlaceholders text (some []) = extractPlaceholders text)
    ∧ ∀ (text : List Char) (i1 i2 : PlaceholderInfo),
        getOrderedPlaceholders text (some [("b".toList, i1), ("a".toList, i2)]) =
          ["b".toList, "a".toList] := by
  refine ⟨?_, ?_, ?_, ?_⟩
  · intro text m hm
    show (if (m.map (·.1)).length > 0 then m.map (·.1)
          else extractPlaceholders text) = m.map (·.1)
    rw [if_pos (by simpa using List.length_pos.mpr hm)]
  · intro text
    rfl
  · intro text
    rfl
  · intro text i1 i2
    rfl

/-- C7 witness: metadata with the single key `b` is returned verbatim. -/
theorem claim_C7_witness :
    getOrderedPlaceholders "hi".toList
      (some [("b".toList, ⟨none, none, none, none, none⟩)]) = ["b".toList] :=
  claim_C7.1 "hi".toList [("b".toList, ⟨none, none, none, none, none⟩)] (by decide)

/-- C8: `getIcuType` returns the type of the leftmost ICU header match (so
later segments of a compound message never affect it), and `null` (here
`none`) when no index matches the header pattern. -/
theorem claim_C8 :
    (∀ (s n rest : List Char) (j : Nat) (t : IcuType),
        matchIcuHeader (s.drop j) = some (n, t, rest) →
        (∀ i, i < j → matchIcuHeader (s.drop i) = none) →
        getIcuType s = some t)
    ∧ ∀ s : List Char, (∀ i, matchIcuHeader (s.drop i) = none) →
        getIcuType s = none := by
  constructor
  · intro s n rest j t hm hnone
    unfold getIcuType
    rw [findHeaderFrom_leftmost hm 0 (by omega) fun k _ hk => hnone k hk]
  · intro s h
    unfold getIcuType
    rw [findHeaderFrom_allNone h 0]

/-- C8 witness: on the compound message whose first segment is a `select`
and second a `plural`, the type is `select`. -/
theorem claim_C8_witness : getIcuType mixedTypesText = some IcuType.select :=
  claim_C8.1 mixedTypesText "g".toList
    " other\x7ba\x7d\x7d \x7bn, plural, other\x7bb\x7d\x7d".toList 0 IcuType.select
    (by decide) (fun i hi => absurd hi (Nat.not_lt_zero i))

/-- C9 counterexample: in `"{a b {x, plural, other{q}} c}"` position 27 (the
`c`) lies in a depth-1 block that is not an ICU header, the nested ICU block
having already closed; the code returns `true` (its flag is set by a header
at any depth and only cleared when depth returns to zero), while the claimed
"most recently opened depth-1 block" semantics (`specInsideBlock`) returns
`false`. -/
theorem claim_C9_counterexample :
    isInsideIcuBlock outerBlockText 27 = true ∧
    specInsideBlock outerBlockText 27 = false := by
  constructor
  · decide
  · decide

/-- C9 amended: `isInsideIcuBlock(text, position)` returns true iff the brace
depth at the position is positive and some ICU header's `{` (at any depth,
not only depth 1) was seen at an index `j < position` with the depth never
returning to zero strictly between `j` and `position`. -/
theorem claim_C9_amended (s : List Char) (p : Nat) :
    isInsideIcuBlock s p = true ↔
      (0 < balanceAt s p ∧
        ∃ j, j < p ∧ headerAt s j ∧ ∀ k, j < k → k < p → ¬ resetAt s k) :=
  isInsideIcuBlock_iff s p

/-- C10: two same-locale documents both defining `k` aggregate without
failure or conflict report (the model is a total function); the later
document's (last) value for `k` silently overwrites the earlier one in
`translations[L]`. -/
theorem claim_C10 (d1 d2 : ArbDoc) (k L : List Char) (v : ArbValue)
    (h1 : d1.locale = L) (h2 : d2.locale = L)
    (hd1 : definesKey d1 k = true) (hd2 : definesKey d2 k = true)
    (hv : lastEntryVal d2 k = some v) :
    ∃ tk, (parseModule [d1, d2]).find? (fun tk => tk.key = k) = some tk ∧
      lookupAssoc tk.translations L = some v := by
  have hk : ¬ isMetaKey k = true := definesKey_not_meta hd1
  rw [parseModule_find]
  show ∃ tk, lookupAssoc (processDoc (processDoc [] d1) d2) k = some tk ∧
    lookupAssoc tk.translations L = some v
  obtain ⟨p1, ps1, hfil1⟩ := filter_ne_nil_of_definesKey hd1
  obtain ⟨p2, ps2, hfil2⟩ := filter_ne_nil_of_definesKey hd2
  have hs1 := processDoc_lookup ([] : List (List Char × TranslationKey)) d1 k hk
  rw [show lookupAssoc ([] : List (List Char × TranslationKey)) k = none from rfl,
    hfil1, applyVal_foldl_none] at hs1
  have hs2 := processDoc_lookup (processDoc [] d1) d2 k hk
  rw [hs1, hfil2, applyVal_foldl_some] at hs2
  refine ⟨_, hs2, ?_⟩
  have hq : ∃ q, (p2 :: ps2).getLast? = some q ∧ q.2 = v := by
    unfold lastEntryVal at hv
    rw [hfil2] at hv
    rcases hql : (p2 :: ps2).getLast? with _ | q
    · rw [hql] at hv
      cases hv
    · rw [hql] at hv
      injection hv with hv
      exact ⟨q, rfl, hv⟩
  obtain ⟨q, hql, hqv⟩ := hq
  show lookupAssoc ((p2 :: ps2).foldl (fun tr q => setAssoc tr d2.locale q.2)
      ((p1 :: ps1).foldl (fun tr q => setAssoc tr d1.locale q.2)
        ([] : List (List Char × ArbValue)))) L = some v
  rw [lookup_setAssocFold_last _ hql, if_pos h2.symm, hqv]

/-- C10 witness: two `en` documents both defining `k`; the final value is
the second document's. -/
theorem claim_C10_witness :
    ∃ tk, (parseModule [docDupA, docDupB]).find?
        (fun tk => tk.key = "k".toList) = some tk ∧
      lookupAssoc tk.translations "en".toList =
        some (ArbValue.str "second".toList) :=
  claim_C10 docDupA docDupB "k".toList "en".toList (ArbValue.str "second".toList)
    rfl rfl (by decide) (by decide) (by decide)

end ArbParser
